import Mathlib

/-
Verification of the file-search core in internal/fsext/fileutil.go:
the hidden/conventionally-ignored path classifier (SkipHidden), the
gitignore-aware skip decision (shouldSkip), and the concurrent,
pattern-filtered, recency-ranked search (GlobWithDoubleStar).

Modelling conventions:
* Paths are strings with the Unix separator. All string operations are
  implemented structurally on the underlying character lists so that
  concrete runs evaluate inside the kernel.
* External collaborators (the fastwalk traversal, the doublestar glob
  matcher, the gitignore matcher, the Go standard library path helpers
  and sort.Slice) are not part of the repository source; they are
  modelled here from their documented behavior, as described in the
  accompanying doc comments.
* Machine integers: the Go int limit is modelled as Int, file
  modification times as Int (nanoseconds since epoch; time.After is
  strict greater-than). No arithmetic here can overflow 64 bits in the
  scenarios considered, so no wrap-around is modelled.
-/

/-- Split a character list on a separator character. Mirrors Go
strings.Split semantics: splitting the empty list yields one empty
segment, and adjacent separators yield empty segments. -/
def splitCharsAux (sep : Char) : List Char → List Char → List (List Char)
  | [], cur => [cur.reverse]
  | c :: rest, cur =>
    if c = sep then cur.reverse :: splitCharsAux sep rest []
    else splitCharsAux sep rest (c :: cur)

/-- Split a character list on a separator character (entry point). -/
def splitChars (sep : Char) (cs : List Char) : List (List Char) :=
  splitCharsAux sep cs []

/-- Drop trailing separator characters, as Go path/filepath.Base does
before extracting the final element. -/
def dropTrailingSep (cs : List Char) : List Char :=
  (cs.reverse.dropWhile (fun c => c = '/')).reverse

/-- Models the Go collaborator path/filepath.Base for Unix paths: "." for
the empty path, "/" when the path consists entirely of separators,
otherwise the final element after trailing separators are removed. -/
def filepathBase (path : String) : String :=
  if path = "" then "."
  else
    let stripped := dropTrailingSep path.data
    let last := (splitChars '/' stripped).getLastD []
    if last = [] then "/" else String.mk last

/-- True when the first character of the string is a dot. Models the Go
expression strings.HasPrefix(s, "."). -/
def startsWithDot (s : String) : Bool :=
  match s.data with
  | c :: _ => c = '.'
  | [] => false

/-- The hidden-file check of SkipHidden (fileutil.go lines 40-43): the
base name is not "." and starts with a dot. -/
def isHidden (path : String) : Bool :=
  let base := filepathBase path
  base != "." && startsWithDot base

/-- The fixed set of conventionally ignored directory names from
SkipHidden (fileutil.go lines 45-66). -/
def commonIgnoredDirs : List String :=
  [".crush", "node_modules", "vendor", "dist", "build", "target",
   ".git", ".idea", ".vscode", "__pycache__", "bin", "obj", "out",
   "coverage", "tmp", "temp", "logs", "generated", "bower_components",
   "jspm_packages"]

/-- The separator-split segments of a path, as iterated by SkipHidden
(fileutil.go line 68, strings.SplitSeq on the path separator). -/
def pathParts (path : String) : List String :=
  (splitChars '/' path.data).map String.mk

/-- The conventional-ignore check of SkipHidden (fileutil.go lines
68-73): some separator-split segment is in the fixed ignore set. -/
def isConventionallyIgnored (path : String) : Bool :=
  (pathParts path).any (fun part => commonIgnoredDirs.contains part)

/-- SkipHidden (fileutil.go lines 38-75): true when the base name is
hidden, or some path segment is a conventionally ignored directory
name. -/
def SkipHidden (path : String) : Bool :=
  isHidden path || isConventionallyIgnored path

/-- The final segment of a path as the specification words it: the last
separator-split segment, ignoring trailing separators (stated
independently of filepathBase for the refinement claim about
isHidden). -/
def specFinalSegment (path : String) : String :=
  String.mk ((splitChars '/' (dropTrailingSep path.data)).getLastD [])

/-- One pass of the lexical path-cleaning algorithm of Go
path/filepath.Clean (Unix): drop empty and "." components, resolve ".."
against the output stack (".." at the root vanishes, ".." with nothing
to pop is kept only for relative paths). The first argument records
whether the path is rooted; the third is the output stack (reversed). -/
def cleanComponents (rooted : Bool) : List (List Char) → List (List Char) → List (List Char)
  | [], out => out.reverse
  | seg :: rest, out =>
    if seg = [] ∨ seg = ['.'] then cleanComponents rooted rest out
    else if seg = ['.', '.'] then
      match out with
      | [] =>
        if rooted then cleanComponents rooted rest []
        else cleanComponents rooted rest [seg]
      | prev :: outRest =>
        if prev = ['.', '.'] then cleanComponents rooted rest (seg :: out)
        else cleanComponents rooted rest outRest
    else cleanComponents rooted rest (seg :: out)

/-- Join path components with the separator. -/
def joinSegs : List (List Char) → List Char
  | [] => []
  | s :: rest => s ++ rest.flatMap (fun t => '/' :: t)

/-- Models the Go collaborator path/filepath.Clean for Unix paths:
lexically shortest equivalent path ("." for the empty result of a
relative path, a leading "/" preserved for rooted paths). -/
def pathClean (path : String) : String :=
  if path = "" then "."
  else
    let rooted := match path.data with | '/' :: _ => true | _ => false
    let comps := cleanComponents rooted (splitChars '/' path.data) []
    let joined := joinSegs comps
    if rooted then String.mk ('/' :: joined)
    else if joined = [] then "." else String.mk joined

/-- True when the last character of the string is the separator. -/
def endsWithSep (s : String) : Bool :=
  match s.data.getLast? with
  | some c => c = '/'
  | none => false

/-- Models how the fastwalk traversal collaborator builds the visited
path of a directory entry from its parent directory's path and its
name: raw concatenation parent + separator + name, the separator
omitted when the parent already ends in one. Unlike path/filepath.Join
there is no lexical cleaning, so with root "." the visited paths carry
a leading "./" component. -/
def joinPath (parent name : String) : String :=
  if endsWithSep parent then parent ++ name else parent ++ "/" ++ name

/-- Drop the longest common leading run of equal components from two
component lists (the first loop of Go path/filepath.Rel). -/
def dropCommonSegs : List (List Char) → List (List Char) → List (List Char) × List (List Char)
  | b :: bs, t :: ts => if b = t then dropCommonSegs bs ts else (b :: bs, t :: ts)
  | bs, ts => (bs, ts)

/-- Models the Go collaborator path/filepath.Rel for Unix paths: the
relative path from basepath to targpath, or none (an error in Go) when
one path is rooted and the other is not, or when the first base
component past the common prefix is "..". -/
def filepathRel (basepath targpath : String) : Option String :=
  let base := pathClean basepath
  let targ := pathClean targpath
  if targ = base then some "."
  else
    let base2 := if base = "." then "" else base
    let baseSlashed := match base2.data with | '/' :: _ => true | _ => false
    let targSlashed := match targ.data with | '/' :: _ => true | _ => false
    if baseSlashed ≠ targSlashed then none
    else
      let belems := if base2 = "" then [] else splitChars '/' base2.data
      let telems := splitChars '/' targ.data
      let rems := dropCommonSegs belems telems
      match rems.1 with
      | b :: brest =>
        if b = ['.', '.'] then none
        else
          some (String.mk (joinSegs ((b :: brest).map (fun _ => ['.', '.']) ++ rems.2)))
      | [] => some (String.mk (joinSegs rems.2))

/-- Models the compiled gitignore matcher collaborator
(sabhiram/go-gitignore): immutable once built, it exposes the single
query MatchesPath on a root-relative path. -/
structure GitIgnore where
  matchesPath : String → Bool

/-- shouldSkip (fileutil.go lines 99-112): skip when SkipHidden holds;
otherwise, when a gitignore matcher is present and the path relativizes
against rootPath without error, skip when the matcher matches the
relative path. A relativization error never causes a skip. -/
def shouldSkip (path rootPath : String) (gitignore : Option GitIgnore) : Bool :=
  if SkipHidden path then true
  else
    match gitignore with
    | some gi =>
      match filepathRel rootPath path with
      | some relPath => gi.matchesPath relPath
      | none => false
    | none => false

/-- FastGlobWalker (fileutil.go lines 78-81): the gitignore matcher (if
one was compiled) and the root path of the search. -/
structure FastGlobWalker where
  gitignore : Option GitIgnore
  rootPath : String

/-- NewFastGlobWalker (fileutil.go lines 83-97). The stat and compile of
the root .gitignore file are collaborator calls (os.Stat and
ignore.CompileIgnoreFile); their combined outcome is the
compiledGitignore argument, which is none when the file is absent or
fails to compile (both are swallowed, not errors). -/
def NewFastGlobWalker (searchPath : String) (compiledGitignore : Option GitIgnore) : FastGlobWalker :=
  { gitignore := compiledGitignore, rootPath := searchPath }

/-- A single-segment glob token: a literal character, "?" (any one
character), "*" (any run of characters within the segment), a character
class with optional negation and a list of inclusive character ranges,
or a brace alternation group. Each alternative of a group is pre-parsed
independently: some holds its token sequence, none records a malformed
alternative (e.g. an unterminated character class), which only raises
ErrBadPattern if matching actually reaches and tries it — doublestar
tries alternatives lazily, so a malformed alternative after a matching
one is never noticed. -/
inductive GlobTok where
  | lit (c : Char)
  | anyOne
  | anySeq
  | charClass (neg : Bool) (ranges : List (Char × Char))
  | alt (alts : List (Option (List GlobTok)))

/-- A pattern segment: either the recursive wildcard "**" (matching any
number of whole path segments) or a token sequence matched against one
path segment. -/
inductive GlobSeg where
  | doubleStar
  | toks (ts : List GlobTok)

/-- Parse a character class body after the opening bracket (and after an
optional negation marker): a list of characters and ranges terminated
by a closing bracket. Returns none (a malformed class) when the class
is unterminated. Fuel-structural so that it evaluates in the kernel. -/
def parseClassAux : Nat → List Char → List (Char × Char) → Option (List (Char × Char) × List Char)
  | 0, _, _ => none
  | _ + 1, [], _ => none
  | _ + 1, ']' :: r, acc => some (acc.reverse, r)
  | f + 1, a :: '-' :: b :: r, acc =>
    if b = ']' then none else parseClassAux f r ((a, b) :: acc)
  | f + 1, a :: r, acc => parseClassAux f r ((a, a) :: acc)

/-- Scan the body of a brace group after the opening brace, tracking
nesting depth, up to the matching closing brace. Returns the body and
the remainder, or none when the group is unterminated. -/
def scanBraceAux : Nat → Nat → List Char → List Char → Option (List Char × List Char)
  | 0, _, _, _ => none
  | _ + 1, _, [], _ => none
  | f + 1, depth, '\x7b' :: r, acc => scanBraceAux f (depth + 1) r ('\x7b' :: acc)
  | f + 1, depth, '\x7d' :: r, acc =>
    match depth with
    | 0 => some (acc.reverse, r)
    | d + 1 => scanBraceAux f d r ('\x7d' :: acc)
  | f + 1, depth, c :: r, acc => scanBraceAux f depth r (c :: acc)

/-- Split a brace-group body on the commas at nesting depth zero. -/
def splitAltsAux : Nat → Nat → List Char → List Char → List (List Char)
  | 0, _, _, cur => [cur.reverse]
  | _ + 1, _, [], cur => [cur.reverse]
  | f + 1, 0, ',' :: r, cur => cur.reverse :: splitAltsAux f 0 r []
  | f + 1, depth, '\x7b' :: r, cur => splitAltsAux f (depth + 1) r ('\x7b' :: cur)
  | f + 1, depth, '\x7d' :: r, cur => splitAltsAux f (depth - 1) r ('\x7d' :: cur)
  | f + 1, depth, c :: r, cur => splitAltsAux f depth r (c :: cur)

/-- Parse one pattern segment into tokens. Returns none when a
character class outside any brace group is malformed or a brace group
is unterminated (those patterns can never match, so reporting
ErrBadPattern on every call is observationally equivalent for the one
caller, which treats errors and non-matches identically). A brace
group's alternatives are parsed individually and may individually be
malformed without failing the whole segment (lazy alternation). -/
def parseSegAux : Nat → List Char → Option (List GlobTok)
  | 0, _ => none
  | _ + 1, [] => some []
  | f + 1, '?' :: r => (parseSegAux f r).map (fun ts => GlobTok.anyOne :: ts)
  | f + 1, '*' :: r => (parseSegAux f r).map (fun ts => GlobTok.anySeq :: ts)
  | f + 1, '[' :: r =>
    let negRest : Bool × List Char :=
      match r with
      | '^' :: r2 => (true, r2)
      | '!' :: r2 => (true, r2)
      | _ => (false, r)
    match parseClassAux f negRest.2 [] with
    | some (ranges, rest) =>
      (parseSegAux f rest).map (fun ts => GlobTok.charClass negRest.1 ranges :: ts)
    | none => none
  | f + 1, '\x7b' :: r =>
    match scanBraceAux f 0 r [] with
    | none => none
    | some (body, rest) =>
      let alts := (splitAltsAux (body.length + 1) 0 body []).map (fun a => parseSegAux f a)
      (parseSegAux f rest).map (fun ts => GlobTok.alt alts :: ts)
  | f + 1, c :: r => (parseSegAux f r).map (fun ts => GlobTok.lit c :: ts)

/-- Parse one separator-split pattern segment: "**" is the recursive
wildcard, anything else is a token sequence. -/
def parseSegment (s : List Char) : Option GlobSeg :=
  if s = ['*', '*'] then some GlobSeg.doubleStar
  else (parseSegAux (s.length + 1) s).map GlobSeg.toks

/-- Parse every segment of a pattern, failing when any segment fails. -/
def parseSegmentList : List (List Char) → Option (List GlobSeg)
  | [] => some []
  | s :: rest =>
    match parseSegment s, parseSegmentList rest with
    | some g, some gs => some (g :: gs)
    | _, _ => none

/-- Parse a whole pattern into segments split on the separator; none is
the modelled ErrBadPattern raised on every call. -/
def parsePattern (pattern : String) : Option (List GlobSeg) :=
  parseSegmentList (splitChars '/' pattern.data)

/-- Character class membership: the character lies in some range,
negated for a negated class. -/
def inClass (neg : Bool) (ranges : List (Char × Char)) (c : Char) : Bool :=
  let hit := ranges.any (fun r => r.1 ≤ c && c ≤ r.2)
  if neg then !hit else hit

mutual
/-- Fuel for matching a token sequence: at least the recursion depth of
matchToksE on it, counting every brace alternative. -/
def toksFuel : List GlobTok → Nat
  | [] => 0
  | t :: ts => tokFuel t + toksFuel ts
/-- Fuel contribution of one token. -/
def tokFuel : GlobTok → Nat
  | GlobTok.lit _ => 1
  | GlobTok.anyOne => 1
  | GlobTok.anySeq => 1
  | GlobTok.charClass _ _ => 1
  | GlobTok.alt alts => 1 + altsFuel alts
/-- Fuel contribution of a list of brace alternatives. -/
def altsFuel : List (Option (List GlobTok)) → Nat
  | [] => 0
  | none :: rest => 1 + altsFuel rest
  | some ts :: rest => 1 + toksFuel ts + altsFuel rest
end

/-- The modelled ErrBadPattern of the doublestar collaborator. -/
inductive MatchErr where
  | badPattern
  deriving Repr, DecidableEq

mutual
/-- Match a token sequence against the characters of one path segment,
with "*" matching any run via backtracking and brace groups trying
their alternatives lazily left to right: a later alternative (malformed
or not) is only examined when every earlier one failed to match.
ErrBadPattern is raised exactly when a malformed alternative is tried.
Fuel-structural; fuel exceeding toksFuel plus the segment length is
always sufficient. -/
def matchToksE : Nat → List GlobTok → List Char → Except MatchErr Bool
  | 0, _, _ => Except.error MatchErr.badPattern
  | _ + 1, [], [] => Except.ok true
  | _ + 1, [], _ :: _ => Except.ok false
  | f + 1, GlobTok.anySeq :: p, [] => matchToksE f p []
  | f + 1, GlobTok.anySeq :: p, c :: n =>
    match matchToksE f p (c :: n) with
    | Except.ok true => Except.ok true
    | Except.ok false => matchToksE f (GlobTok.anySeq :: p) n
    | Except.error e => Except.error e
  | f + 1, GlobTok.alt alts :: p, n => matchAltsE f alts p n
  | _ + 1, _ :: _, [] => Except.ok false
  | f + 1, GlobTok.lit a :: p, c :: n =>
    if a = c then matchToksE f p n else Except.ok false
  | f + 1, GlobTok.anyOne :: p, _ :: n => matchToksE f p n
  | f + 1, GlobTok.charClass neg rs :: p, c :: n =>
    if inClass neg rs c then matchToksE f p n else Except.ok false
/-- Try the alternatives of a brace group in order against the rest of
the segment: a parsed alternative is spliced in front of the remaining
tokens; a malformed alternative raises ErrBadPattern when tried. -/
def matchAltsE : Nat → List (Option (List GlobTok)) → List GlobTok → List Char → Except MatchErr Bool
  | _, [], _, _ => Except.ok false
  | 0, _ :: _, _, _ => Except.error MatchErr.badPattern
  | _ + 1, none :: _, _, _ => Except.error MatchErr.badPattern
  | f + 1, some ts :: restAlts, p, n =>
    match matchToksE f (ts ++ p) n with
    | Except.ok true => Except.ok true
    | Except.ok false => matchAltsE f restAlts p n
    | Except.error e => Except.error e
end

/-- Match a token sequence against one path segment with sufficient
fuel. -/
def matchToks (ts : List GlobTok) (seg : List Char) : Except MatchErr Bool :=
  matchToksE (toksFuel ts + seg.length + 1) ts seg

/-- Match a segment-pattern list against the separator-split segments of
a name, with "**" matching any number of whole segments via
backtracking; match errors propagate. Fuel-structural. -/
def matchSegsE : Nat → List GlobSeg → List (List Char) → Except MatchErr Bool
  | 0, _, _ => Except.error MatchErr.badPattern
  | _ + 1, [], [] => Except.ok true
  | _ + 1, [], _ :: _ => Except.ok false
  | f + 1, GlobSeg.doubleStar :: p, [] => matchSegsE f p []
  | f + 1, GlobSeg.doubleStar :: p, s :: n =>
    match matchSegsE f p (s :: n) with
    | Except.ok true => Except.ok true
    | Except.ok false => matchSegsE f (GlobSeg.doubleStar :: p) n
    | Except.error e => Except.error e
  | _ + 1, GlobSeg.toks _ :: _, [] => Except.ok false
  | f + 1, GlobSeg.toks ts :: p, s :: n =>
    match matchToks ts s with
    | Except.ok true => matchSegsE f p n
    | Except.ok false => Except.ok false
    | Except.error e => Except.error e

/-- Models the glob-matching collaborator doublestar.Match for patterns
built from literals, "?", "*", "**" segments, character classes and
brace alternation. A pattern that cannot be parsed at all (an
unterminated brace group, or a malformed character class outside any
brace group) yields ErrBadPattern on every call; such patterns can
never match in doublestar either, and the one caller treats a match
error and a non-match identically, so reporting the error eagerly is
observationally equivalent to doublestar's lazy error discovery. A
malformed alternative inside a brace group, by contrast, is kept and
raises ErrBadPattern only when matching actually tries it, mirroring
doublestar's lazy alternation: a pattern like "\x7ba,[\x7d" still
matches the name "a". -/
def doublestarMatch (pattern name : String) : Except MatchErr Bool :=
  match parsePattern pattern with
  | none => Except.error MatchErr.badPattern
  | some segs =>
    let nameSegs := splitChars '/' name.data
    matchSegsE (segs.length + nameSegs.length + 1) segs nameSegs

mutual
/-- Whether a token is syntactically valid: every alternative of every
brace group parsed. -/
def validTok : GlobTok → Bool
  | GlobTok.lit _ => true
  | GlobTok.anyOne => true
  | GlobTok.anySeq => true
  | GlobTok.charClass _ _ => true
  | GlobTok.alt alts => validAltList alts
/-- Whether every alternative of a brace group parsed. -/
def validAltList : List (Option (List GlobTok)) → Bool
  | [] => true
  | none :: _ => false
  | some ts :: rest => validToks ts && validAltList rest
/-- Whether every token of a sequence is syntactically valid. -/
def validToks : List GlobTok → Bool
  | [] => true
  | t :: ts => validTok t && validToks ts
end

/-- Models the doublestar.ValidatePattern collaborator: a pattern is
syntactically well formed when it parses and every brace alternative
parses too. Match can still succeed on patterns this rejects, because
alternatives are tried lazily. -/
def validatePattern (pattern : String) : Bool :=
  match parsePattern pattern with
  | none => false
  | some segs =>
    segs.all (fun s =>
      match s with
      | GlobSeg.doubleStar => true
      | GlobSeg.toks ts => validToks ts)

/-- A file-system tree for one search. A file carries its name, its
modification time, whether visiting it reports a per-entry access error
(the non-nil err argument of the walk callback), and whether reading
its metadata fails (the d.Info() error). A directory carries its name,
whether visiting or reading it reports a per-entry access error, and
its entries. -/
inductive FSEntry where
  | file (name : String) (modTime : Int) (accessErr : Bool) (infoErr : Bool)
  | dir (name : String) (accessErr : Bool) (children : List FSEntry)
  deriving Repr

/-- The name of an entry. -/
def FSEntry.name : FSEntry → String
  | .file n _ _ _ => n
  | .dir n _ _ => n

/-- Whether an entry is a regular file. -/
def FSEntry.isFile : FSEntry → Bool
  | .file _ _ _ _ => true
  | .dir _ _ _ => false

/-- Whether visiting the entry reports a per-entry access error. -/
def FSEntry.accessErr : FSEntry → Bool
  | .file _ _ a _ => a
  | .dir _ a _ => a

mutual
/-- A size measure on entries used as traversal fuel and as a
termination measure (a directory weighs two so that expanding it
strictly decreases the measure of a work list). -/
def FSEntry.size : FSEntry → Nat
  | .file _ _ _ _ => 1
  | .dir _ _ cs => 2 + FSEntry.sizeList cs
/-- The summed size of a list of entries. -/
def FSEntry.sizeList : List FSEntry → Nat
  | [] => 0
  | e :: es => FSEntry.size e + FSEntry.sizeList es
end

/-- The sibling visitation preference of the traversal collaborator
(fastwalk with Sort: SortFilesFirst, fileutil.go line 122): regular
files of a directory are visited before its subdirectories. -/
def sortFilesFirst (cs : List FSEntry) : List FSEntry :=
  cs.filter FSEntry.isFile ++ cs.filter (fun e => !e.isFile)

/-- A pending unit of traversal work: the visited path of an entry
paired with the entry. -/
abbrev WorkItem := String × FSEntry

/-- A file that matched, with its path and modification time
(fileutil.go lines 33-36). -/
structure FileInfo where
  path : String
  modTime : Int
  deriving Repr, DecidableEq

/-- The less function passed to sort.Slice (fileutil.go line 177):
matches[i].ModTime.After(matches[j].ModTime), i.e. strictly more
recent. -/
def fileInfoAfter (a b : FileInfo) : Bool :=
  decide (b.modTime < a.modTime)

/-- The walk callback of GlobWithDoubleStar (fileutil.go lines 125-171)
applied to one visited entry, given the matches collected so far.
Returns the new matches list, the work items for the entry's children
(nonempty only for a directory that is descended into), and whether the
callback returned filepath.SkipAll (the early-termination signal).
An entry with a per-entry access error is skipped (line 127). A
directory is pruned when shouldSkip holds (line 134), otherwise its
children are scheduled. A file is skipped when shouldSkip holds; it is
matched against the pattern via its path relative to searchPath
(falling back to the path itself when relativization fails, lines
148-151); a match error or a non-match skips it (lines 153-156); a
metadata error skips it (lines 158-161); otherwise it is appended and
SkipAll is returned once at least limit*2 matches are recorded with
limit positive (lines 163-169). -/
def processItem (pattern searchPath : String) (gitignore : Option GitIgnore) (limit : Int)
    (ms : List FileInfo) (path : String) (e : FSEntry) :
    List FileInfo × List WorkItem × Bool :=
  match e with
  | .dir _ aerr children =>
    if aerr then (ms, [], false)
    else if shouldSkip path searchPath gitignore then (ms, [], false)
    else (ms, (sortFilesFirst children).map (fun c => (joinPath path c.name, c)), false)
  | .file _ mt aerr ierr =>
    if aerr then (ms, [], false)
    else if shouldSkip path searchPath gitignore then (ms, [], false)
    else
      let relPath := (filepathRel searchPath path).getD path
      match doublestarMatch pattern relPath with
      | .error _ => (ms, [], false)
      | .ok false => (ms, [], false)
      | .ok true =>
        if ierr then (ms, [], false)
        else
          let ms2 := ms ++ [{ path := path, modTime := mt }]
          (ms2, [], decide (0 < limit ∧ limit * 2 ≤ (ms2.length : Int)))

/-- The summed size of the entries of a work list. -/
def pendingSize (pending : List WorkItem) : Nat :=
  match pending with
  | [] => 0
  | it :: rest => FSEntry.size it.2 + pendingSize rest

/-- The concurrent traversal of the fastwalk collaborator, modelled as a
work-list machine: at each step one pending item is chosen and its
whole callback runs atomically. This is coarser than the source, whose
mutex guards only the append of a candidate and the termination check
(fileutil.go lines 163-169) and not a whole callback; the interleavings
this coarsening hides — several file callbacks in flight past their
checks at once — are modelled by the FineState machine below, which
splits a file callback into a staging phase and a mutex-protected
commit. Which pending item runs next is the scheduling nondeterminism
of the concurrent workers; it is made explicit as a list of choices,
each taken modulo the number of pending items (an empty or exhausted
list picks the first item, which is the deterministic files-first
depth-first order). SkipAll abandons all pending work. Fuel-structural;
fuel at least the pending size is always sufficient. -/
def walkLoop (pattern searchPath : String) (gitignore : Option GitIgnore) (limit : Int) :
    Nat → List Nat → List WorkItem → List FileInfo → List FileInfo
  | 0, _, _, ms => ms
  | _ + 1, _, [], ms => ms
  | fuel + 1, sched, item0 :: restItems, ms =>
    let pending := item0 :: restItems
    let i := sched.headD 0 % pending.length
    let it := pending.getD i item0
    let rest := pending.eraseIdx i
    let out := processItem pattern searchPath gitignore limit ms it.1 it.2
    if out.2.2 then out.1
    else walkLoop pattern searchPath gitignore limit fuel (sched.drop 1) (out.2.1 ++ rest) out.1

/-- The matches collected by the walk of GlobWithDoubleStar over the
given root entry, under the given worker schedule. -/
def collectedMatches (pattern searchPath : String) (gitignore : Option GitIgnore)
    (root : FSEntry) (limit : Int) (sched : List Nat) : List FileInfo :=
  walkLoop pattern searchPath gitignore limit (FSEntry.size root) sched [(searchPath, root)] []

/-- The state of the fine-grained model of the concurrent walk: the
pending traversal work; the candidates of file callbacks that have
passed their skip, match and metadata checks (fileutil.go lines
140-161) but have not yet entered the mutex-protected section, staged
in flight; the recorded matches; and whether some callback has returned
filepath.SkipAll. -/
structure FineState where
  pending : List WorkItem
  staged : List FileInfo
  recorded : List FileInfo
  stopped : Bool
  deriving Repr

/-- One scheduling choice of the fine-grained machine: start the
callback of the pending item at an index (taken modulo the pending
count), or let the in-flight callback holding the staged candidate at
an index (taken modulo the staged count) enter the mutex-protected
section and commit it. -/
inductive FineChoice where
  | start (i : Nat)
  | commit (j : Nat)
  deriving Repr

/-- The initial fine-grained state: only the root is pending, nothing
is staged or recorded, no callback has signalled termination. -/
def fineInit (searchPath : String) (root : FSEntry) : FineState :=
  { pending := [(searchPath, root)], staged := [], recorded := [], stopped := false }

/-- One scheduled step of the fine-grained model of the concurrent
walk. Unlike walkLoop, a file callback is not atomic here: the mutex of
the source guards only the append of a candidate and the termination
check (fileutil.go lines 163-169), so a file callback is split into a
start, which runs the skip, match and metadata checks (lines 140-161)
and stages the candidate they produce, and a commit, which appends a
staged candidate to the matches and checks the threshold (lines
163-169). A start picks a pending item (the index modulo the pending
count), runs processItem on it with an empty accumulator and keeps its
first component as the staged candidate (empty or a singleton) and its
second as the new child work; the halt flag processItem computes
against the empty accumulator is discarded, because the threshold is
checked at commit against the true matches list. Directory callbacks
never touch the shared matches, so a start completes them outright. A
start is blocked once some callback has returned SkipAll (fastwalk
issues no further callbacks) and while W callbacks are already in
flight (at most W workers); a commit remains possible after SkipAll,
because a worker already past its checks still finishes its callback —
the interleaving that lets the recorded matches overshoot limit*2. -/
def fineStep (pattern searchPath : String) (gitignore : Option GitIgnore) (limit : Int)
    (W : Nat) (st : FineState) : FineChoice → FineState
  | FineChoice.start i =>
    if st.stopped then st
    else if st.staged.length < W then
      match st.pending with
      | [] => st
      | item0 :: restItems =>
        let pending := item0 :: restItems
        let idx := i % pending.length
        let it := pending.getD idx item0
        let rest := pending.eraseIdx idx
        let out := processItem pattern searchPath gitignore limit [] it.1 it.2
        { st with pending := out.2.1 ++ rest, staged := st.staged ++ out.1 }
    else st
  | FineChoice.commit j =>
    match st.staged with
    | [] => st
    | s0 :: _ =>
      let idx := j % st.staged.length
      let fi := st.staged.getD idx s0
      let ms2 := st.recorded ++ [fi]
      { pending := st.pending, staged := st.staged.eraseIdx idx, recorded := ms2,
        stopped := st.stopped || decide (0 < limit ∧ limit * 2 ≤ (ms2.length : Int)) }

/-- The fine-grained machine run over a list of scheduling choices. -/
def fineRun (pattern searchPath : String) (gitignore : Option GitIgnore) (limit : Int)
    (W : Nat) : List FineChoice → FineState → FineState
  | [], st => st
  | c :: cs, st =>
    fineRun pattern searchPath gitignore limit W cs
      (fineStep pattern searchPath gitignore limit W st c)

/-- The safety invariant of the fine-grained machine: while no callback
has signalled termination the recorded matches stay strictly below
limit*2 (for a positive limit); at most W candidates are staged; and
after termination is signalled the recorded and staged candidates
together stay within limit*2 + W - 1. -/
def FineInv (limit : Int) (W : Nat) (st : FineState) : Prop :=
  (st.stopped = false → 0 < limit → (st.recorded.length : Int) < limit * 2) ∧
  st.staged.length ≤ W ∧
  (st.stopped = true → 0 < limit →
    (st.recorded.length : Int) + (st.staged.length : Int) ≤ limit * 2 + (W : Int) - 1)

/-- The sort.Slice collaborator: a function sorting a matches list by a
less function. Its documented contract (SortSpec below) promises a
permutation ordered by the less function; it does not promise
stability. -/
abbrev Sorter := (FileInfo → FileInfo → Bool) → List FileInfo → List FileInfo

/-- The documented contract of sort.Slice for the one less function the
source passes: the output is a permutation of the input and adjacent
outputs are never strictly out of order. Stability is deliberately not
part of the contract, matching the sort.Slice documentation. -/
def SortSpec (s : Sorter) : Prop :=
  ∀ xs : List FileInfo,
    (s fileInfoAfter xs).Perm xs ∧
    List.Chain' (fun a b => fileInfoAfter b a = false) (s fileInfoAfter xs)

/-- The ranked matches (fileutil.go lines 176-184): the collected
matches sorted by the sort.Slice collaborator, truncated to the first
limit entries when limit is positive and exceeded. -/
def rankedMatches (s : Sorter) (limit : Int) (ms : List FileInfo) : List FileInfo :=
  let sorted := s fileInfoAfter ms
  if 0 < limit ∧ (limit : Int) < (sorted.length : Int) then sorted.take limit.toNat
  else sorted

/-- The truncation flag (fileutil.go lines 180-184): limit is positive
and the sorted matches exceed it. -/
def resultTruncated (s : Sorter) (limit : Int) (ms : List FileInfo) : Bool :=
  decide (0 < limit ∧ (limit : Int) < ((s fileInfoAfter ms).length : Int))

/-- The message of the fatal traversal error: fastwalk surfaces the
failure to stat the root, and the source wraps it (fileutil.go line
173). -/
def fastwalkRootErrMsg : String :=
  "fastwalk error: stat root"

/-- The three return values of GlobWithDoubleStar: the result paths,
the truncation flag, and the error (none on success). -/
structure GlobResult where
  paths : List String
  truncated : Bool
  err : Option String
  deriving Repr, DecidableEq

/-- GlobWithDoubleStar (fileutil.go lines 114-191). Parameters model the
collaborator interactions: sortSlice is the sort.Slice collaborator,
compiledGitignore the outcome of the gitignore load of
NewFastGlobWalker, root the file-system tree rooted at searchPath
(whose accessErr flag models a failing stat of the root path, the fatal
traversal error), and sched the worker schedule of the concurrent
traversal. On a fatal traversal error the wrapped error is returned
with nil paths and a false truncation flag (lines 172-174); otherwise
the walk collects matches, sort.Slice ranks them newest-first, the
limit truncates them, and the paths are projected (lines 176-190). -/
def GlobWithDoubleStar (sortSlice : Sorter) (compiledGitignore : Option GitIgnore)
    (pattern searchPath : String) (root : FSEntry) (limit : Int) (sched : List Nat) :
    GlobResult :=
  let walker := NewFastGlobWalker searchPath compiledGitignore
  if root.accessErr then { paths := [], truncated := false, err := some fastwalkRootErrMsg }
  else
    let ms := collectedMatches pattern walker.rootPath walker.gitignore root limit sched
    { paths := (rankedMatches sortSlice limit ms).map FileInfo.path,
      truncated := resultTruncated sortSlice limit ms,
      err := none }

/-- Insert an element into a list sorted by a less function, before the
first element it is strictly less-than (keeping it after elements it
ties with). -/
def insertByAfter (less : FileInfo → FileInfo → Bool) (x : FileInfo) : List FileInfo → List FileInfo
  | [] => [x]
  | y :: ys => if less x y then x :: y :: ys else y :: insertByAfter less x ys

/-- A sorter witnessing the sort.Slice contract: insertion sort by the
less function (this particular implementation happens to be stable). -/
def insertionSortSlice : Sorter :=
  fun less xs => xs.foldl (fun acc x => insertByAfter less x acc) []

/-- A second sorter witnessing the sort.Slice contract: insertion sort
of the reversed input. It is a valid sort.Slice behavior (permutation,
ordered by the less function) that reverses the relative order of tied
elements. -/
def revSortSlice : Sorter :=
  fun less xs => insertionSortSlice less xs.reverse

theorem insertByAfter_perm (less : FileInfo → FileInfo → Bool) (x : FileInfo)
    (l : List FileInfo) : (insertByAfter less x l).Perm (x :: l) := by
  induction l with
  | nil => simp [insertByAfter]
  | cons y ys ih =>
    simp only [insertByAfter]
    split
    · exact List.Perm.refl _
    · exact (List.Perm.cons y ih).trans (List.Perm.swap x y ys)

theorem foldl_insertByAfter_perm (less : FileInfo → FileInfo → Bool)
    (xs acc : List FileInfo) :
    (xs.foldl (fun acc x => insertByAfter less x acc) acc).Perm (acc ++ xs) := by
  induction xs generalizing acc with
  | nil => simp
  | cons x xs ih =>
    simp only [List.foldl_cons]
    refine (ih (insertByAfter less x acc)).trans ?_
    refine (List.Perm.append_right xs (insertByAfter_perm less x acc)).trans ?_
    exact List.perm_middle.symm

theorem chainInsertByAfter (less : FileInfo → FileInfo → Bool)
    (hasym : ∀ a b, less a b = true → less b a = false) (x : FileInfo)
    (l : List FileInfo) (hl : List.Chain' (fun a b => less b a = false) l) :
    List.Chain' (fun a b => less b a = false) (insertByAfter less x l) := by
  induction l with
  | nil => simp [insertByAfter]
  | cons y ys ih =>
    simp only [insertByAfter]
    split
    case isTrue h => exact hl.cons (hasym x y h)
    case isFalse h =>
      rw [List.chain'_cons']
      refine ⟨?_, ih hl.tail⟩
      intro z hz
      have hxy : less x y = false := by
        revert h; cases hfc : less x y <;> simp
      cases ys with
      | nil =>
        simp only [insertByAfter, List.head?_cons, Option.mem_def, Option.some.injEq] at hz
        subst hz
        exact hxy
      | cons w ws =>
        simp only [insertByAfter] at hz
        split at hz
        · simp only [List.head?_cons, Option.mem_def, Option.some.injEq] at hz
          subst hz
          exact hxy
        · simp only [List.head?_cons, Option.mem_def, Option.some.injEq] at hz
          subst hz
          exact (List.chain'_cons.mp hl).1

theorem fileInfoAfter_asym (a b : FileInfo) :
    fileInfoAfter a b = true → fileInfoAfter b a = false := by
  simp only [fileInfoAfter, decide_eq_true_eq, decide_eq_false_iff_not]
  omega

theorem sortSpec_insertionSortSlice : SortSpec insertionSortSlice := by
  intro xs
  constructor
  · simpa using foldl_insertByAfter_perm fileInfoAfter xs []
  · show List.Chain' _ (xs.foldl (fun acc x => insertByAfter fileInfoAfter x acc) [])
    have key : ∀ (ys acc : List FileInfo),
        List.Chain' (fun a b => fileInfoAfter b a = false) acc →
        List.Chain' (fun a b => fileInfoAfter b a = false)
          (ys.foldl (fun acc x => insertByAfter fileInfoAfter x acc) acc) := by
      intro ys
      induction ys with
      | nil => intro acc h; simpa using h
      | cons y ys ih =>
        intro acc h
        simp only [List.foldl_cons]
        exact ih _ (chainInsertByAfter fileInfoAfter fileInfoAfter_asym y acc h)
    exact key xs [] (by simp)

theorem sortSpec_revSortSlice : SortSpec revSortSlice := by
  intro xs
  have h := sortSpec_insertionSortSlice xs.reverse
  exact ⟨h.1.trans (List.reverse_perm xs), h.2⟩
theorem FSEntry.size_pos (e : FSEntry) : 1 ≤ FSEntry.size e := by
  cases e <;> simp [FSEntry.size] <;> omega

theorem FSEntry.sizeList_append (a b : List FSEntry) :
    FSEntry.sizeList (a ++ b) = FSEntry.sizeList a + FSEntry.sizeList b := by
  induction a with
  | nil => simp [FSEntry.sizeList]
  | cons e es ih => simp [FSEntry.sizeList, ih]; omega

theorem FSEntry.sizeList_filter_pair (p : FSEntry → Bool) (cs : List FSEntry) :
    FSEntry.sizeList (cs.filter p) + FSEntry.sizeList (cs.filter (fun e => !p e)) =
      FSEntry.sizeList cs := by
  induction cs with
  | nil => simp [FSEntry.sizeList]
  | cons e es ih =>
    cases hp : p e <;> simp [List.filter_cons, hp, FSEntry.sizeList] <;> omega

theorem sizeList_sortFilesFirst (cs : List FSEntry) :
    FSEntry.sizeList (sortFilesFirst cs) = FSEntry.sizeList cs := by
  unfold sortFilesFirst
  rw [FSEntry.sizeList_append, FSEntry.sizeList_filter_pair]

theorem pendingSize_map_children (path : String) (cs : List FSEntry) :
    pendingSize (cs.map (fun c => (joinPath path c.name, c))) = FSEntry.sizeList cs := by
  induction cs with
  | nil => rfl
  | cons e es ih => simp [pendingSize, FSEntry.sizeList, ih]

mutual
/-- The qualifying candidates of one visited entry: the files in its
subtree that the walk callback would record absent any early
termination, in files-first depth-first order, with the same skip
checks, pattern match and per-entry error handling as processItem. -/
def qualifying (pattern searchPath : String) (gitignore : Option GitIgnore) (path : String) :
    FSEntry → List FileInfo
  | FSEntry.file _ mt aerr ierr =>
    if aerr then []
    else if shouldSkip path searchPath gitignore then []
    else
      match doublestarMatch pattern ((filepathRel searchPath path).getD path) with
      | .error _ => []
      | .ok false => []
      | .ok true => if ierr then [] else [{ path := path, modTime := mt }]
  | FSEntry.dir _ aerr children =>
    if aerr then []
    else if shouldSkip path searchPath gitignore then []
    else
      qualifyingList pattern searchPath gitignore
        ((sortFilesFirst children).map (fun c => (joinPath path c.name, c)))
termination_by e => FSEntry.size e
decreasing_by
  simp only [pendingSize_map_children, sizeList_sortFilesFirst, FSEntry.size]
  omega
/-- The concatenated qualifying candidates of a work list. -/
def qualifyingList (pattern searchPath : String) (gitignore : Option GitIgnore) :
    List WorkItem → List FileInfo
  | [] => []
  | (p, e) :: rest =>
    qualifying pattern searchPath gitignore p e ++
      qualifyingList pattern searchPath gitignore rest
termination_by items => pendingSize items + 1
decreasing_by
  · simp only [pendingSize]
    omega
  · simp only [pendingSize]
    have := FSEntry.size_pos e
    omega
end

mutual
/-- The tree with every entry carrying a per-entry error removed: files
whose visit or metadata read fails and directories whose visit or read
fails (together with their whole subtree, which the walk cannot
reach). -/
def pruneEntry : FSEntry → Option FSEntry
  | FSEntry.file n mt aerr ierr =>
    if aerr || ierr then none else some (FSEntry.file n mt false false)
  | FSEntry.dir n aerr cs =>
    if aerr then none else some (FSEntry.dir n false (pruneChildren cs))
/-- pruneEntry mapped over a list of entries, dropping removed ones. -/
def pruneChildren : List FSEntry → List FSEntry
  | [] => []
  | c :: cs =>
    match pruneEntry c with
    | some c2 => c2 :: pruneChildren cs
    | none => pruneChildren cs
end


theorem pendingSize_append (a b : List WorkItem) :
    pendingSize (a ++ b) = pendingSize a + pendingSize b := by
  induction a with
  | nil => simp [pendingSize]
  | cons it rest ih => simp [pendingSize, ih]; omega

theorem pendingSize_eq_zero {l : List WorkItem} (h : pendingSize l = 0) : l = [] := by
  cases l with
  | nil => rfl
  | cons it rest =>
    exfalso
    have h1 := FSEntry.size_pos it.2
    simp [pendingSize] at h
    omega

theorem pendingSize_getD_eraseIdx (l : List WorkItem) (d : WorkItem) :
    ∀ i, i < l.length →
      FSEntry.size (l.getD i d).2 + pendingSize (l.eraseIdx i) = pendingSize l := by
  induction l with
  | nil => intro i hi; simp at hi
  | cons it rest ih =>
    intro i hi
    cases i with
    | zero => simp [pendingSize]
    | succ j =>
      simp only [List.getD_cons_succ, List.eraseIdx_cons_succ, pendingSize]
      have := ih j (by simpa using hi)
      omega

theorem processItem_newItems_size (pattern searchPath : String) (gi : Option GitIgnore)
    (limit : Int) (ms : List FileInfo) (path : String) (e : FSEntry) :
    pendingSize (processItem pattern searchPath gi limit ms path e).2.1 + 1 ≤ FSEntry.size e := by
  cases e with
  | file n mt aerr ierr =>
    have hnil : (processItem pattern searchPath gi limit ms path (FSEntry.file n mt aerr ierr)).2.1 = [] := by
      simp only [processItem]
      split
      · rfl
      split
      · rfl
      split <;> first | rfl | (split <;> rfl)
    rw [hnil]
    simp [pendingSize, FSEntry.size]
  | dir n aerr cs =>
    simp only [processItem]
    split
    · simp only [pendingSize, FSEntry.size]; omega
    split
    · simp only [pendingSize, FSEntry.size]; omega
    · simp only [pendingSize_map_children, sizeList_sortFilesFirst, FSEntry.size]
      omega

theorem walkLoop_nil (pattern searchPath : String) (gi : Option GitIgnore) (limit : Int)
    (fuel : Nat) (sched : List Nat) (ms : List FileInfo) :
    walkLoop pattern searchPath gi limit fuel sched [] ms = ms := by
  cases fuel <;> rfl

theorem walkLoop_fuel (pattern searchPath : String) (gi : Option GitIgnore) (limit : Int) :
    ∀ f1 f2 sched pending ms, pendingSize pending ≤ f1 → pendingSize pending ≤ f2 →
      walkLoop pattern searchPath gi limit f1 sched pending ms =
        walkLoop pattern searchPath gi limit f2 sched pending ms := by
  intro f1
  induction f1 with
  | zero =>
    intro f2 sched pending ms h1 h2
    have : pending = [] := pendingSize_eq_zero (Nat.le_zero.mp h1)
    subst this
    rw [walkLoop_nil, walkLoop_nil]
  | succ f ih =>
    intro f2 sched pending ms h1 h2
    cases pending with
    | nil => rw [walkLoop_nil, walkLoop_nil]
    | cons it0 restItems =>
      have hpos : 1 ≤ pendingSize (it0 :: restItems) := by
        have := FSEntry.size_pos it0.2
        simp only [pendingSize]
        omega
      cases f2 with
      | zero => omega
      | succ g =>
        simp only [walkLoop]
        generalize hI : sched.headD 0 % (it0 :: restItems).length = i
        have hi : i < (it0 :: restItems).length := hI ▸ Nat.mod_lt _ (by simp)
        have ha := pendingSize_getD_eraseIdx (it0 :: restItems) it0 i hi
        have hb := processItem_newItems_size pattern searchPath gi limit ms
          ((it0 :: restItems).getD i it0).1 ((it0 :: restItems).getD i it0).2
        have happ := pendingSize_append
          (processItem pattern searchPath gi limit ms
            ((it0 :: restItems).getD i it0).1 ((it0 :: restItems).getD i it0).2).2.1
          ((it0 :: restItems).eraseIdx i)
        split
        · rfl
        · exact ih g (sched.drop 1) _ _ (by omega) (by omega)

theorem qualifyingList_nil (pattern searchPath : String) (gi : Option GitIgnore) :
    qualifyingList pattern searchPath gi [] = [] := by
  simp [qualifyingList]

theorem qualifyingList_append (pattern searchPath : String) (gi : Option GitIgnore)
    (a b : List WorkItem) :
    qualifyingList pattern searchPath gi (a ++ b) =
      qualifyingList pattern searchPath gi a ++ qualifyingList pattern searchPath gi b := by
  induction a with
  | nil => simp [qualifyingList]
  | cons it rest ih =>
    cases it
    simp [qualifyingList, ih]

theorem qualifyingList_getD_eraseIdx (pattern searchPath : String) (gi : Option GitIgnore)
    (l : List WorkItem) (d : WorkItem) :
    ∀ i, i < l.length →
      (qualifyingList pattern searchPath gi l).Perm
        (qualifying pattern searchPath gi (l.getD i d).1 (l.getD i d).2 ++
          qualifyingList pattern searchPath gi (l.eraseIdx i)) := by
  induction l with
  | nil => intro i hi; simp at hi
  | cons it rest ih =>
    intro i hi
    cases i with
    | zero =>
      cases it
      simp [qualifyingList]
    | succ j =>
      cases it with
      | mk p e =>
        simp only [List.getD_cons_succ, List.eraseIdx_cons_succ, qualifyingList]
        refine (List.Perm.append_left _ (ih j (by simpa using hi))).trans ?_
        rw [← List.append_assoc, ← List.append_assoc]
        exact List.Perm.append_right _ List.perm_append_comm

theorem processItem_qualifying (pattern searchPath : String) (gi : Option GitIgnore)
    (limit : Int) (ms : List FileInfo) (path : String) (e : FSEntry) :
    (processItem pattern searchPath gi limit ms path e).1 ++
        qualifyingList pattern searchPath gi
          (processItem pattern searchPath gi limit ms path e).2.1 =
      ms ++ qualifying pattern searchPath gi path e := by
  cases e with
  | file n mt aerr ierr =>
    simp only [processItem, qualifying]
    split
    · simp [qualifyingList]
    split
    · simp [qualifyingList]
    split
    · simp [qualifyingList]
    · simp [qualifyingList]
    · split
      · simp [qualifyingList]
      · simp [qualifyingList]
  | dir n aerr cs =>
    simp only [processItem, qualifying]
    split
    · simp [qualifyingList]
    split
    · simp [qualifyingList]
    · rfl

theorem processItem_matches_mono (pattern searchPath : String) (gi : Option GitIgnore)
    (limit : Int) (ms : List FileInfo) (path : String) (e : FSEntry) :
    (processItem pattern searchPath gi limit ms path e).1 = ms ∨
      ∃ fi, (processItem pattern searchPath gi limit ms path e).1 = ms ++ [fi] := by
  cases e with
  | file n mt aerr ierr =>
    simp only [processItem]
    split
    · exact Or.inl rfl
    split
    · exact Or.inl rfl
    split
    · exact Or.inl rfl
    · exact Or.inl rfl
    · split
      · exact Or.inl rfl
      · exact Or.inr ⟨_, rfl⟩
  | dir n aerr cs =>
    simp only [processItem]
    split
    · exact Or.inl rfl
    split
    · exact Or.inl rfl
    · exact Or.inl rfl

theorem processItem_halt_true (pattern searchPath : String) (gi : Option GitIgnore)
    (limit : Int) (ms : List FileInfo) (path : String) (e : FSEntry)
    (h : (processItem pattern searchPath gi limit ms path e).2.2 = true) :
    0 < limit ∧
      limit * 2 ≤ (((processItem pattern searchPath gi limit ms path e).1).length : Int) := by
  cases e with
  | file n mt aerr ierr =>
    revert h
    simp only [processItem]
    split
    · intro h; cases h
    split
    · intro h; cases h
    split
    · intro h; cases h
    · intro h; cases h
    · split
      · intro h; cases h
      · intro h
        simp only [decide_eq_true_eq] at h
        exact h
  | dir n aerr cs =>
    revert h
    simp only [processItem]
    split
    · intro h; cases h
    split
    · intro h; cases h
    · intro h; cases h

theorem processItem_halt_false (pattern searchPath : String) (gi : Option GitIgnore)
    (limit : Int) (ms : List FileInfo) (path : String) (e : FSEntry)
    (h0 : 0 < limit)
    (h : (processItem pattern searchPath gi limit ms path e).2.2 = false)
    (hlt : (ms.length : Int) < limit * 2) :
    (((processItem pattern searchPath gi limit ms path e).1).length : Int) < limit * 2 := by
  revert h
  cases e with
  | file n mt aerr ierr =>
    simp only [processItem]
    split
    · intro h; exact hlt
    split
    · intro h; exact hlt
    split
    · intro h; exact hlt
    · intro h; exact hlt
    · split
      · intro h; exact hlt
      · intro h
        simp only [decide_eq_false_iff_not, not_and, not_le] at h
        have h2 := h h0
        simp only [List.length_append, List.length_cons, List.length_nil] at h2 ⊢
        push_cast at h2 ⊢
        omega
  | dir n aerr cs =>
    simp only [processItem]
    split
    · intro h; exact hlt
    split
    · intro h; exact hlt
    · intro h; exact hlt

theorem processItem_halt_nonpos (pattern searchPath : String) (gi : Option GitIgnore)
    (limit : Int) (ms : List FileInfo) (path : String) (e : FSEntry) (hl : limit ≤ 0) :
    (processItem pattern searchPath gi limit ms path e).2.2 = false := by
  cases e with
  | file n mt aerr ierr =>
    simp only [processItem]
    split
    · rfl
    split
    · rfl
    split
    · rfl
    · rfl
    · split
      · rfl
      · simp only [decide_eq_false_iff_not, not_and]
        intro h0; omega
  | dir n aerr cs =>
    simp only [processItem]
    split
    · rfl
    split
    · rfl
    · rfl

theorem walkLoop_length_min (pattern searchPath : String) (gi : Option GitIgnore)
    (limit : Int) (hl : 0 < limit) :
    ∀ fuel sched pending ms, pendingSize pending ≤ fuel →
      (ms.length : Int) < limit * 2 →
      ((walkLoop pattern searchPath gi limit fuel sched pending ms).length : Int) =
        min ((ms.length : Int) +
              ((qualifyingList pattern searchPath gi pending).length : Int)) (limit * 2) := by
  intro fuel
  induction fuel with
  | zero =>
    intro sched pending ms hf hm
    have : pending = [] := pendingSize_eq_zero (Nat.le_zero.mp hf)
    subst this
    rw [walkLoop_nil, qualifyingList_nil]
    simp only [List.length_nil, Int.natCast_zero, add_zero]
    omega
  | succ f ih =>
    intro sched pending ms hf hm
    cases pending with
    | nil =>
      rw [walkLoop_nil, qualifyingList_nil]
      simp only [List.length_nil, Int.natCast_zero, add_zero]
      omega
    | cons it0 restItems =>
      have hpos : 1 ≤ pendingSize (it0 :: restItems) := by
        have := FSEntry.size_pos it0.2
        simp only [pendingSize]
        omega
      simp only [walkLoop]
      generalize hI : sched.headD 0 % (it0 :: restItems).length = i
      have hi : i < (it0 :: restItems).length := hI ▸ Nat.mod_lt _ (by simp)
      have ha := pendingSize_getD_eraseIdx (it0 :: restItems) it0 i hi
      have hb := processItem_newItems_size pattern searchPath gi limit ms
        ((it0 :: restItems).getD i it0).1 ((it0 :: restItems).getD i it0).2
      have happ := pendingSize_append
        (processItem pattern searchPath gi limit ms
          ((it0 :: restItems).getD i it0).1 ((it0 :: restItems).getD i it0).2).2.1
        ((it0 :: restItems).eraseIdx i)
      have hq := processItem_qualifying pattern searchPath gi limit ms
        ((it0 :: restItems).getD i it0).1 ((it0 :: restItems).getD i it0).2
      have hqlen := congrArg List.length hq
      simp only [List.length_append] at hqlen
      have hsplit := (qualifyingList_getD_eraseIdx pattern searchPath gi
        (it0 :: restItems) it0 i hi).length_eq
      simp only [List.length_append] at hsplit
      split
      case isTrue hhalt =>
        have hht := processItem_halt_true pattern searchPath gi limit ms
          ((it0 :: restItems).getD i it0).1 ((it0 :: restItems).getD i it0).2 hhalt
        rcases processItem_matches_mono pattern searchPath gi limit ms
          ((it0 :: restItems).getD i it0).1 ((it0 :: restItems).getD i it0).2 with
          heq | ⟨fi, heq⟩
        · rw [heq] at hht; omega
        · rw [heq] at hht ⊢
          rw [heq] at hqlen
          simp only [List.length_append, List.length_cons, List.length_nil] at hht hqlen ⊢
          push_cast at hht hqlen hsplit ⊢
          omega
      case isFalse hhalt =>
        have hlt2 := processItem_halt_false pattern searchPath gi limit ms
          ((it0 :: restItems).getD i it0).1 ((it0 :: restItems).getD i it0).2 hl
          (by simpa using hhalt) hm
        rw [ih (sched.drop 1) _ _ (by omega) hlt2]
        rw [qualifyingList_append]
        simp only [List.length_append]
        rcases processItem_matches_mono pattern searchPath gi limit ms
          ((it0 :: restItems).getD i it0).1 ((it0 :: restItems).getD i it0).2 with
          heq | ⟨fi, heq⟩
        · rw [heq] at hqlen ⊢
          push_cast at hqlen hsplit ⊢
          omega
        · rw [heq] at hqlen ⊢
          simp only [List.length_append, List.length_cons, List.length_nil] at hqlen ⊢
          push_cast at hqlen hsplit ⊢
          omega

theorem walkLoop_perm_qualifying (pattern searchPath : String) (gi : Option GitIgnore)
    (limit : Int) (hl : limit ≤ 0) :
    ∀ fuel sched pending ms, pendingSize pending ≤ fuel →
      (walkLoop pattern searchPath gi limit fuel sched pending ms).Perm
        (ms ++ qualifyingList pattern searchPath gi pending) := by
  intro fuel
  induction fuel with
  | zero =>
    intro sched pending ms hf
    have : pending = [] := pendingSize_eq_zero (Nat.le_zero.mp hf)
    subst this
    rw [walkLoop_nil, qualifyingList_nil, List.append_nil]
  | succ f ih =>
    intro sched pending ms hf
    cases pending with
    | nil =>
      rw [walkLoop_nil, qualifyingList_nil, List.append_nil]
    | cons it0 restItems =>
      have hpos : 1 ≤ pendingSize (it0 :: restItems) := by
        have := FSEntry.size_pos it0.2
        simp only [pendingSize]
        omega
      simp only [walkLoop]
      generalize hI : sched.headD 0 % (it0 :: restItems).length = i
      have hi : i < (it0 :: restItems).length := hI ▸ Nat.mod_lt _ (by simp)
      have ha := pendingSize_getD_eraseIdx (it0 :: restItems) it0 i hi
      have hb := processItem_newItems_size pattern searchPath gi limit ms
        ((it0 :: restItems).getD i it0).1 ((it0 :: restItems).getD i it0).2
      have happ := pendingSize_append
        (processItem pattern searchPath gi limit ms
          ((it0 :: restItems).getD i it0).1 ((it0 :: restItems).getD i it0).2).2.1
        ((it0 :: restItems).eraseIdx i)
      have hq := processItem_qualifying pattern searchPath gi limit ms
        ((it0 :: restItems).getD i it0).1 ((it0 :: restItems).getD i it0).2
      rw [processItem_halt_nonpos pattern searchPath gi limit ms
        ((it0 :: restItems).getD i it0).1 ((it0 :: restItems).getD i it0).2 hl]
      simp only [Bool.false_eq_true, if_false]
      refine (ih (sched.drop 1) _ _ (by omega)).trans ?_
      rw [qualifyingList_append, ← List.append_assoc, hq, List.append_assoc]
      exact List.Perm.append_left ms
        (qualifyingList_getD_eraseIdx pattern searchPath gi (it0 :: restItems) it0 i hi).symm

theorem processItem_nil_fst_length (pattern searchPath : String) (gi : Option GitIgnore)
    (limit : Int) (path : String) (e : FSEntry) :
    (processItem pattern searchPath gi limit [] path e).1.length ≤ 1 := by
  rcases processItem_matches_mono pattern searchPath gi limit [] path e with h | ⟨fi, h⟩
  · simp [h]
  · simp [h]

theorem getD_cons_eraseIdx_perm (l : List FileInfo) (d : FileInfo) :
    ∀ i, i < l.length → l.Perm (l.getD i d :: l.eraseIdx i) := by
  induction l with
  | nil => intro i hi; simp at hi
  | cons x xs ih =>
    intro i hi
    cases i with
    | zero => simp
    | succ j =>
      simp only [List.getD_cons_succ, List.eraseIdx_cons_succ]
      exact ((ih j (by simpa using hi)).cons x).trans (List.Perm.swap _ _ _)

theorem fineStep_start_stopped_noop (pattern searchPath : String) (gi : Option GitIgnore)
    (limit : Int) (W : Nat) (st : FineState) (i : Nat) (h : st.stopped = true) :
    fineStep pattern searchPath gi limit W st (FineChoice.start i) = st := by
  simp [fineStep, h]

theorem fineStep_start_full (pattern searchPath : String) (gi : Option GitIgnore)
    (limit : Int) (W : Nat) (st : FineState) (i : Nat) (h : ¬ st.staged.length < W) :
    fineStep pattern searchPath gi limit W st (FineChoice.start i) = st := by
  simp [fineStep, h]

theorem fineStep_start_nil (pattern searchPath : String) (gi : Option GitIgnore)
    (limit : Int) (W : Nat) (st : FineState) (i : Nat) (h : st.pending = []) :
    fineStep pattern searchPath gi limit W st (FineChoice.start i) = st := by
  simp [fineStep, h]

theorem fineStep_start_eq (pattern searchPath : String) (gi : Option GitIgnore)
    (limit : Int) (W : Nat) (st : FineState) (i : Nat) (item0 : WorkItem)
    (restItems : List WorkItem) (hstop : st.stopped = false)
    (hW : st.staged.length < W) (hp : st.pending = item0 :: restItems) :
    fineStep pattern searchPath gi limit W st (FineChoice.start i) =
      { st with
        pending := (processItem pattern searchPath gi limit []
              ((item0 :: restItems).getD (i % (item0 :: restItems).length) item0).1
              ((item0 :: restItems).getD (i % (item0 :: restItems).length) item0).2).2.1 ++
            (item0 :: restItems).eraseIdx (i % (item0 :: restItems).length),
        staged := st.staged ++
          (processItem pattern searchPath gi limit []
              ((item0 :: restItems).getD (i % (item0 :: restItems).length) item0).1
              ((item0 :: restItems).getD (i % (item0 :: restItems).length) item0).2).1 } := by
  simp [fineStep, hstop, hW, hp]

theorem fineStep_commit_nil (pattern searchPath : String) (gi : Option GitIgnore)
    (limit : Int) (W : Nat) (st : FineState) (j : Nat) (h : st.staged = []) :
    fineStep pattern searchPath gi limit W st (FineChoice.commit j) = st := by
  simp [fineStep, h]

theorem fineStep_commit_eq (pattern searchPath : String) (gi : Option GitIgnore)
    (limit : Int) (W : Nat) (st : FineState) (j : Nat) (s0 : FileInfo)
    (srest : List FileInfo) (hsg : st.staged = s0 :: srest) :
    fineStep pattern searchPath gi limit W st (FineChoice.commit j) =
      { pending := st.pending,
        staged := st.staged.eraseIdx (j % st.staged.length),
        recorded := st.recorded ++ [st.staged.getD (j % st.staged.length) s0],
        stopped := st.stopped || decide (0 < limit ∧ limit * 2 ≤
          ((st.recorded ++ [st.staged.getD (j % st.staged.length) s0]).length : Int)) } := by
  conv_lhs => rw [fineStep, hsg]
  rw [hsg]

theorem fineStep_inv (pattern searchPath : String) (gi : Option GitIgnore) (limit : Int)
    (W : Nat) (st : FineState) (c : FineChoice) (h : FineInv limit W st) :
    FineInv limit W (fineStep pattern searchPath gi limit W st c) := by
  obtain ⟨h1, h2, h3⟩ := h
  cases c with
  | start i =>
    cases hstop : st.stopped with
    | true =>
      rw [fineStep_start_stopped_noop pattern searchPath gi limit W st i hstop]
      exact ⟨h1, h2, h3⟩
    | false =>
      by_cases hW : st.staged.length < W
      · cases hp : st.pending with
        | nil =>
          rw [fineStep_start_nil pattern searchPath gi limit W st i hp]
          exact ⟨h1, h2, h3⟩
        | cons item0 restItems =>
          rw [fineStep_start_eq pattern searchPath gi limit W st i item0 restItems
            hstop hW hp]
          have hlen := processItem_nil_fst_length pattern searchPath gi limit
            ((item0 :: restItems).getD (i % (item0 :: restItems).length) item0).1
            ((item0 :: restItems).getD (i % (item0 :: restItems).length) item0).2
          refine ⟨fun _ hpos => h1 hstop hpos, ?_, fun hst _ => by simp [hstop] at hst⟩
          show (st.staged ++ _).length ≤ W
          rw [List.length_append]
          omega
      · rw [fineStep_start_full pattern searchPath gi limit W st i hW]
        exact ⟨h1, h2, h3⟩
  | commit j =>
    cases hsg : st.staged with
    | nil =>
      rw [fineStep_commit_nil pattern searchPath gi limit W st j hsg]
      exact ⟨h1, h2, h3⟩
    | cons s0 srest =>
      rw [fineStep_commit_eq pattern searchPath gi limit W st j s0 srest hsg]
      have hidx : j % st.staged.length < st.staged.length := by
        rw [hsg]; exact Nat.mod_lt _ (Nat.succ_pos _)
      have hperm := getD_cons_eraseIdx_perm st.staged s0 (j % st.staged.length) hidx
      have hlen : st.staged.length = (st.staged.eraseIdx (j % st.staged.length)).length + 1 := by
        simpa using hperm.length_eq
      refine ⟨?_, ?_, ?_⟩
      · intro hst hpos
        simp only [Bool.or_eq_false_iff, decide_eq_false_iff_not, not_and, not_le] at hst
        exact hst.2 hpos
      · show (st.staged.eraseIdx (j % st.staged.length)).length ≤ W
        omega
      · intro _ hpos
        show ((st.recorded ++ [st.staged.getD (j % st.staged.length) s0]).length : Int) +
          ((st.staged.eraseIdx (j % st.staged.length)).length : Int) ≤ limit * 2 + (W : Int) - 1
        cases hb : st.stopped with
        | true =>
          have hbound := h3 hb hpos
          simp only [List.length_append, List.length_cons, List.length_nil]
          omega
        | false =>
          have hub := h1 hb hpos
          simp only [List.length_append, List.length_cons, List.length_nil]
          omega

theorem fineRun_inv (pattern searchPath : String) (gi : Option GitIgnore) (limit : Int)
    (W : Nat) : ∀ (choices : List FineChoice) (st : FineState),
    FineInv limit W st → FineInv limit W (fineRun pattern searchPath gi limit W choices st)
  | [], _, h => h
  | c :: cs, st, h =>
    fineRun_inv pattern searchPath gi limit W cs _
      (fineStep_inv pattern searchPath gi limit W st c h)

theorem fineInit_inv (limit : Int) (W : Nat) (searchPath : String) (root : FSEntry) :
    FineInv limit W (fineInit searchPath root) := by
  refine ⟨fun _ hpos => ?_, by simp [fineInit], fun hst _ => by simp [fineInit] at hst⟩
  show ((([] : List FileInfo)).length : Int) < limit * 2
  simp only [List.length_nil, Int.natCast_zero]
  omega

theorem fineStep_stopped_nonpos (pattern searchPath : String) (gi : Option GitIgnore)
    (limit : Int) (W : Nat) (st : FineState) (c : FineChoice) (hl : limit ≤ 0) :
    (fineStep pattern searchPath gi limit W st c).stopped = st.stopped := by
  cases c with
  | start i =>
    cases hstop : st.stopped with
    | true =>
      rw [fineStep_start_stopped_noop pattern searchPath gi limit W st i hstop]
      exact hstop
    | false =>
      by_cases hW : st.staged.length < W
      · cases hp : st.pending with
        | nil =>
          rw [fineStep_start_nil pattern searchPath gi limit W st i hp]
          exact hstop
        | cons item0 restItems =>
          rw [fineStep_start_eq pattern searchPath gi limit W st i item0 restItems
            hstop hW hp]
          exact hstop
      · rw [fineStep_start_full pattern searchPath gi limit W st i hW]
        exact hstop
  | commit j =>
    cases hsg : st.staged with
    | nil => rw [fineStep_commit_nil pattern searchPath gi limit W st j hsg]
    | cons s0 srest =>
      have hdec : decide (0 < limit ∧ limit * 2 ≤
          ((st.recorded ++ [st.staged.getD (j % st.staged.length) s0]).length : Int)) = false :=
        decide_eq_false (by rintro ⟨hpos, _⟩; omega)
      rw [fineStep_commit_eq pattern searchPath gi limit W st j s0 srest hsg, hdec,
        Bool.or_false]

theorem fineRun_stopped_nonpos (pattern searchPath : String) (gi : Option GitIgnore)
    (limit : Int) (W : Nat) (hl : limit ≤ 0) :
    ∀ (choices : List FineChoice) (st : FineState),
      (fineRun pattern searchPath gi limit W choices st).stopped = st.stopped
  | [], _ => rfl
  | c :: cs, st =>
    (fineRun_stopped_nonpos pattern searchPath gi limit W hl cs _).trans
      (fineStep_stopped_nonpos pattern searchPath gi limit W st c hl)

theorem fineStep_perm (pattern searchPath : String) (gi : Option GitIgnore) (limit : Int)
    (W : Nat) (st : FineState) (c : FineChoice) :
    ((fineStep pattern searchPath gi limit W st c).recorded ++
        (fineStep pattern searchPath gi limit W st c).staged ++
        qualifyingList pattern searchPath gi
          (fineStep pattern searchPath gi limit W st c).pending).Perm
      (st.recorded ++ st.staged ++ qualifyingList pattern searchPath gi st.pending) := by
  cases c with
  | start i =>
    cases hstop : st.stopped with
    | true =>
      rw [fineStep_start_stopped_noop pattern searchPath gi limit W st i hstop]
    | false =>
      by_cases hW : st.staged.length < W
      · cases hp : st.pending with
        | nil =>
          rw [fineStep_start_nil pattern searchPath gi limit W st i hp, hp]
        | cons item0 restItems =>
          rw [fineStep_start_eq pattern searchPath gi limit W st i item0 restItems
            hstop hW hp]
          have hi : i % (item0 :: restItems).length < (item0 :: restItems).length :=
            Nat.mod_lt _ (Nat.succ_pos _)
          have hq := processItem_qualifying pattern searchPath gi limit []
            ((item0 :: restItems).getD (i % (item0 :: restItems).length) item0).1
            ((item0 :: restItems).getD (i % (item0 :: restItems).length) item0).2
          rw [List.nil_append] at hq
          have hsplit := qualifyingList_getD_eraseIdx pattern searchPath gi
            (item0 :: restItems) item0 (i % (item0 :: restItems).length) hi
          show (st.recorded ++ (st.staged ++ _) ++ qualifyingList pattern searchPath gi
            (_ ++ (item0 :: restItems).eraseIdx (i % (item0 :: restItems).length))).Perm _
          rw [qualifyingList_append]
          simp only [List.append_assoc]
          rw [← List.append_assoc
            (processItem pattern searchPath gi limit []
              ((item0 :: restItems).getD (i % (item0 :: restItems).length) item0).1
              ((item0 :: restItems).getD (i % (item0 :: restItems).length) item0).2).1,
            hq]
          exact List.Perm.append_left _ (List.Perm.append_left _ hsplit.symm)
      · rw [fineStep_start_full pattern searchPath gi limit W st i hW]
  | commit j =>
    cases hsg : st.staged with
    | nil =>
      rw [fineStep_commit_nil pattern searchPath gi limit W st j hsg, hsg]
    | cons s0 srest =>
      rw [fineStep_commit_eq pattern searchPath gi limit W st j s0 srest hsg, ← hsg]
      have hidx : j % st.staged.length < st.staged.length := by
        rw [hsg]; exact Nat.mod_lt _ (Nat.succ_pos _)
      have hperm := getD_cons_eraseIdx_perm st.staged s0 (j % st.staged.length) hidx
      show ((st.recorded ++ [st.staged.getD (j % st.staged.length) s0]) ++
        st.staged.eraseIdx (j % st.staged.length) ++
        qualifyingList pattern searchPath gi st.pending).Perm _
      refine List.Perm.append_right _ ?_
      simp only [List.append_assoc, List.singleton_append]
      exact List.Perm.append_left _ hperm.symm

theorem fineRun_perm (pattern searchPath : String) (gi : Option GitIgnore) (limit : Int)
    (W : Nat) : ∀ (choices : List FineChoice) (st : FineState),
    ((fineRun pattern searchPath gi limit W choices st).recorded ++
        (fineRun pattern searchPath gi limit W choices st).staged ++
        qualifyingList pattern searchPath gi
          (fineRun pattern searchPath gi limit W choices st).pending).Perm
      (st.recorded ++ st.staged ++ qualifyingList pattern searchPath gi st.pending)
  | [], _ => List.Perm.refl _
  | c :: cs, st =>
    (fineRun_perm pattern searchPath gi limit W cs _).trans
      (fineStep_perm pattern searchPath gi limit W st c)

theorem doublestarMatch_badPattern (pattern : String) (hbad : parsePattern pattern = none)
    (name : String) : doublestarMatch pattern name = Except.error MatchErr.badPattern := by
  unfold doublestarMatch
  rw [hbad]

theorem processItem_noMatch (pattern searchPath : String) (gi : Option GitIgnore)
    (limit : Int) (ms : List FileInfo) (path : String) (e : FSEntry)
    (hnone : ∀ name, doublestarMatch pattern name ≠ Except.ok true) :
    (processItem pattern searchPath gi limit ms path e).1 = ms ∧
      (processItem pattern searchPath gi limit ms path e).2.2 = false := by
  cases e with
  | file n mt aerr ierr =>
    simp only [processItem]
    split
    · exact ⟨rfl, rfl⟩
    split
    · exact ⟨rfl, rfl⟩
    split
    · exact ⟨rfl, rfl⟩
    · exact ⟨rfl, rfl⟩
    next heq => exact absurd heq (hnone _)
  | dir n aerr cs =>
    simp only [processItem]
    split
    · exact ⟨rfl, rfl⟩
    split
    · exact ⟨rfl, rfl⟩
    · exact ⟨rfl, rfl⟩

theorem walkLoop_noMatch (pattern searchPath : String) (gi : Option GitIgnore)
    (limit : Int) (hnone : ∀ name, doublestarMatch pattern name ≠ Except.ok true) :
    ∀ fuel sched pending ms,
      walkLoop pattern searchPath gi limit fuel sched pending ms = ms := by
  intro fuel
  induction fuel with
  | zero => intro sched pending ms; rfl
  | succ f ih =>
    intro sched pending ms
    cases pending with
    | nil => rfl
    | cons it0 restItems =>
      simp only [walkLoop]
      have hpb := processItem_noMatch pattern searchPath gi limit ms
        ((it0 :: restItems).getD (sched.headD 0 % (it0 :: restItems).length) it0).1
        ((it0 :: restItems).getD (sched.headD 0 % (it0 :: restItems).length) it0).2 hnone
      rw [hpb.2]
      simp only [Bool.false_eq_true, if_false]
      rw [hpb.1]
      exact ih _ _ _

theorem processItem_mem_matched (pattern searchPath : String) (gi : Option GitIgnore)
    (limit : Int) (ms : List FileInfo) (path : String) (e : FSEntry) (fi : FileInfo)
    (hfi : fi ∈ (processItem pattern searchPath gi limit ms path e).1) :
    fi ∈ ms ∨
      doublestarMatch pattern ((filepathRel searchPath fi.path).getD fi.path) =
        Except.ok true := by
  revert hfi
  cases e with
  | file n mt aerr ierr =>
    simp only [processItem]
    split
    · exact Or.inl
    split
    · exact Or.inl
    split
    · exact Or.inl
    · exact Or.inl
    · split
      · exact Or.inl
      next heq _ =>
        intro hfi
        rcases List.mem_append.mp hfi with h | h
        · exact Or.inl h
        · have : fi = { path := path, modTime := mt } := by simpa using h
          subst this
          exact Or.inr heq
  | dir n aerr cs =>
    simp only [processItem]
    split
    · exact Or.inl
    split
    · exact Or.inl
    · exact Or.inl

theorem walkLoop_mem_matched (pattern searchPath : String) (gi : Option GitIgnore)
    (limit : Int) :
    ∀ fuel sched pending ms fi,
      fi ∈ walkLoop pattern searchPath gi limit fuel sched pending ms →
      fi ∈ ms ∨
        doublestarMatch pattern ((filepathRel searchPath fi.path).getD fi.path) =
          Except.ok true := by
  intro fuel
  induction fuel with
  | zero => intro sched pending ms fi hfi; exact Or.inl hfi
  | succ f ih =>
    intro sched pending ms fi hfi
    cases pending with
    | nil => exact Or.inl hfi
    | cons it0 restItems =>
      simp only [walkLoop] at hfi
      split at hfi
      · exact processItem_mem_matched pattern searchPath gi limit ms _ _ fi hfi
      · rcases ih _ _ _ fi hfi with h | h
        · exact processItem_mem_matched pattern searchPath gi limit ms _ _ fi h
        · exact Or.inr h

theorem pruneEntry_name {c c2 : FSEntry} (h : pruneEntry c = some c2) :
    c2.name = c.name := by
  cases c with
  | file n mt aerr ierr =>
    simp only [pruneEntry] at h
    split at h
    · cases h
    · cases h; rfl
  | dir n aerr cs =>
    simp only [pruneEntry] at h
    split at h
    · cases h
    · cases h; rfl

theorem pruneEntry_isFile {c c2 : FSEntry} (h : pruneEntry c = some c2) :
    c2.isFile = c.isFile := by
  cases c with
  | file n mt aerr ierr =>
    simp only [pruneEntry] at h
    split at h
    · cases h
    · cases h; rfl
  | dir n aerr cs =>
    simp only [pruneEntry] at h
    split at h
    · cases h
    · cases h; rfl

theorem pruneChildren_append (a b : List FSEntry) :
    pruneChildren (a ++ b) = pruneChildren a ++ pruneChildren b := by
  induction a with
  | nil => simp [pruneChildren]
  | cons c cs ih =>
    simp only [List.cons_append, pruneChildren]
    cases hpe : pruneEntry c <;> simp [ih]

theorem pruneChildren_filter (q : FSEntry → Bool)
    (hq : ∀ c c2, pruneEntry c = some c2 → q c2 = q c) (cs : List FSEntry) :
    pruneChildren (cs.filter q) = (pruneChildren cs).filter q := by
  induction cs with
  | nil => simp [pruneChildren]
  | cons c cs ih =>
    cases hf : q c
    · rw [List.filter_cons_of_neg (by simp [hf])]
      simp only [pruneChildren]
      cases hpe : pruneEntry c
      · exact ih
      · rw [List.filter_cons_of_neg (by simp [hq c _ hpe, hf]), ih]
    · rw [List.filter_cons_of_pos (by simp [hf])]
      simp only [pruneChildren]
      cases hpe : pruneEntry c
      · exact ih
      · rw [List.filter_cons_of_pos (by simp [hq c _ hpe, hf]), ih]

theorem sortFilesFirst_pruneChildren (cs : List FSEntry) :
    sortFilesFirst (pruneChildren cs) = pruneChildren (sortFilesFirst cs) := by
  unfold sortFilesFirst
  rw [pruneChildren_append,
    pruneChildren_filter FSEntry.isFile (fun c c2 h => pruneEntry_isFile h),
    pruneChildren_filter (fun e => !e.isFile) (fun c c2 h => by
      simp only [pruneEntry_isFile h])]

/-- The work list with every entry carrying a per-entry error removed. -/
def prunePending : List WorkItem → List WorkItem
  | [] => []
  | (p, e) :: rest =>
    match pruneEntry e with
    | some e2 => (p, e2) :: prunePending rest
    | none => prunePending rest

theorem prunePending_map_children (path : String) (cs : List FSEntry) :
    prunePending (cs.map (fun c => (joinPath path c.name, c))) =
      (pruneChildren cs).map (fun c => (joinPath path c.name, c)) := by
  induction cs with
  | nil => rfl
  | cons c cs ih =>
    simp only [List.map_cons, prunePending, pruneChildren]
    cases hpe : pruneEntry c
    · exact ih
    · simp only [List.map_cons, ih, pruneEntry_name hpe]

theorem prunePending_append (a b : List WorkItem) :
    prunePending (a ++ b) = prunePending a ++ prunePending b := by
  induction a with
  | nil => rfl
  | cons it rest ih =>
    obtain ⟨p, e⟩ := it
    simp only [List.cons_append, prunePending]
    cases hpe : pruneEntry e <;> simp [ih]

theorem processItem_entry_err (pattern searchPath : String) (gi : Option GitIgnore)
    (limit : Int) (ms : List FileInfo) (path : String) (e : FSEntry)
    (h : pruneEntry e = none) :
    processItem pattern searchPath gi limit ms path e = (ms, [], false) := by
  cases e with
  | file n mt aerr ierr =>
    simp only [pruneEntry] at h
    split at h
    case isTrue herr =>
      simp only [processItem]
      cases haerr : aerr with
      | true => simp
      | false =>
        have hierr : ierr = true := by
          revert herr; cases ierr <;> simp [haerr]
        subst hierr
        simp only [haerr, Bool.false_eq_true, if_false]
        split
        · rfl
        · split
          · rfl
          · rfl
          · simp
    case isFalse herr => cases h
  | dir n aerr cs =>
    simp only [pruneEntry] at h
    split at h
    case isTrue herr => simp [processItem, herr]
    case isFalse herr => cases h

theorem processItem_file_newItems (pattern searchPath : String) (gi : Option GitIgnore)
    (limit : Int) (ms : List FileInfo) (path n : String) (mt : Int) (aerr ierr : Bool) :
    (processItem pattern searchPath gi limit ms path (FSEntry.file n mt aerr ierr)).2.1 = [] := by
  simp only [processItem]
  split
  · rfl
  split
  · rfl
  split
  · rfl
  · rfl
  · split
    · rfl
    · rfl

theorem walkLoop_prune (pattern searchPath : String) (gi : Option GitIgnore) (limit : Int) :
    ∀ f1 f2 pending ms, pendingSize pending ≤ f1 →
      pendingSize (prunePending pending) ≤ f2 →
      walkLoop pattern searchPath gi limit f1 [] pending ms =
        walkLoop pattern searchPath gi limit f2 [] (prunePending pending) ms := by
  intro f1
  induction f1 with
  | zero =>
    intro f2 pending ms h1 h2
    have hp : pending = [] := pendingSize_eq_zero (Nat.le_zero.mp h1)
    subst hp
    rw [walkLoop_nil, show prunePending [] = [] from rfl, walkLoop_nil]
  | succ f ih =>
    intro f2 pending ms h1 h2
    cases pending with
    | nil => rw [walkLoop_nil, show prunePending [] = [] from rfl, walkLoop_nil]
    | cons it0 restItems =>
      obtain ⟨p, e⟩ := it0
      have hsz : 1 ≤ FSEntry.size e := FSEntry.size_pos e
      have hrest : pendingSize ((p, e) :: restItems) =
          FSEntry.size e + pendingSize restItems := by
        simp only [pendingSize]
      cases hpe : pruneEntry e with
      | none =>
        have hstep := processItem_entry_err pattern searchPath gi limit ms p e hpe
        have hlhs : walkLoop pattern searchPath gi limit (f + 1) [] ((p, e) :: restItems) ms =
            walkLoop pattern searchPath gi limit f [] restItems ms := by
          simp only [walkLoop, List.headD_nil, Nat.zero_mod, List.getD_cons_zero,
            List.eraseIdx_cons_zero, hstep]
          rfl
        have hpp : prunePending ((p, e) :: restItems) = prunePending restItems := by
          simp only [prunePending, hpe]
        rw [hlhs, hpp]
        rw [hpp] at h2
        exact ih f2 restItems ms (by omega) h2
      | some e2 =>
        have hpp : prunePending ((p, e) :: restItems) = (p, e2) :: prunePending restItems := by
          simp only [prunePending, hpe]
        rw [hpp] at h2 ⊢
        have hsz2 : 1 ≤ FSEntry.size e2 := FSEntry.size_pos e2
        have hpos2 : 1 ≤ pendingSize ((p, e2) :: prunePending restItems) := by
          simp only [pendingSize]; omega
        cases f2 with
        | zero => omega
        | succ g =>
          cases e with
          | file n mt aerr ierr =>
            simp only [pruneEntry] at hpe
            split at hpe
            case isTrue herr => simp at hpe
            case isFalse herr =>
            simp only [Bool.or_eq_true, not_or, Bool.not_eq_true] at herr
            obtain ⟨ha, hi2⟩ := herr
            subst ha; subst hi2
            simp only [Option.some.injEq] at hpe
            subst hpe
            simp only [walkLoop, List.headD_nil, Nat.zero_mod, List.getD_cons_zero,
              List.eraseIdx_cons_zero, List.drop_nil]
            split
            · rfl
            · rw [processItem_file_newItems, List.nil_append, List.nil_append]
              refine ih g restItems _ ?_ ?_
              · rw [hrest] at h1
                omega
              · simp only [pendingSize, FSEntry.size] at h2
                omega
          | dir n aerr cs =>
            simp only [pruneEntry] at hpe
            split at hpe
            case isTrue herr => simp at hpe
            case isFalse herr =>
            simp only [Bool.not_eq_true] at herr
            subst herr
            simp only [Option.some.injEq] at hpe
            subst hpe
            simp only [walkLoop, List.headD_nil, Nat.zero_mod, List.getD_cons_zero,
              List.eraseIdx_cons_zero, List.drop_nil, processItem, Bool.false_eq_true,
              if_false]
            split
            case isTrue hskip =>
              simp only [List.nil_append]
              refine ih g restItems ms ?_ ?_
              · rw [hrest] at h1
                simp only [FSEntry.size] at h1
                omega
              · simp only [pendingSize, FSEntry.size] at h2
                omega
            case isFalse hskip =>
              have hmap : prunePending
                  ((sortFilesFirst cs).map (fun c => (joinPath p c.name, c)) ++ restItems) =
                  (sortFilesFirst (pruneChildren cs)).map (fun c => (joinPath p c.name, c)) ++
                    prunePending restItems := by
                rw [prunePending_append, prunePending_map_children,
                  sortFilesFirst_pruneChildren]
              refine Eq.trans (ih g _ ms ?_ ?_) ?_
              · rw [pendingSize_append, pendingSize_map_children, sizeList_sortFilesFirst]
                rw [hrest] at h1
                simp only [FSEntry.size] at h1
                omega
              · rw [hmap, pendingSize_append, pendingSize_map_children,
                  sizeList_sortFilesFirst]
                simp only [pendingSize, FSEntry.size] at h2
                have hple : FSEntry.sizeList (pruneChildren (sortFilesFirst cs)) =
                    FSEntry.sizeList (sortFilesFirst (pruneChildren cs)) := by
                  rw [sortFilesFirst_pruneChildren]
                omega
              · rw [hmap]
                simp

/-- C5: for every path whose final segment is not "." and starts with a
dot, the hidden-path predicate returns true; for every other path it
returns false. -/
theorem C5_isHidden_characterization (path : String) :
    isHidden path = true ↔
      specFinalSegment path ≠ "." ∧ startsWithDot (specFinalSegment path) = true := by
  by_cases h0 : path = ""
  · subst h0; decide
  · simp only [isHidden, specFinalSegment, filepathBase, if_neg h0]
    cases hl : (splitChars '/' (dropTrailingSep path.data)).getLastD [] with
    | nil => decide
    | cons c cs =>
      rw [if_neg (List.cons_ne_nil c cs)]
      simp only [Bool.and_eq_true, bne_iff_ne, ne_eq]

/-- C4: shouldSkip returns true exactly when the path is hidden or
conventionally ignored, or the gitignore index is present, the
relative-path computation from rootPath succeeds, and the relative path
matches an ignore rule; an absent index or a failed relativization
never causes ignore-rule-based skipping. -/
theorem C4_shouldSkip_characterization (path rootPath : String) (gitignore : Option GitIgnore) :
    shouldSkip path rootPath gitignore = true ↔
      (isHidden path = true ∨ isConventionallyIgnored path = true ∨
        ∃ gi rel, gitignore = some gi ∧ filepathRel rootPath path = some rel ∧
          gi.matchesPath rel = true) := by
  constructor
  · intro h
    unfold shouldSkip at h
    split at h
    case isTrue hs =>
      unfold SkipHidden at hs
      simp only [Bool.or_eq_true] at hs
      rcases hs with h1 | h2
      · exact Or.inl h1
      · exact Or.inr (Or.inl h2)
    case isFalse hs =>
      cases hgi : gitignore with
      | none => rw [hgi] at h; simp at h
      | some gi =>
        rw [hgi] at h
        cases hrel : filepathRel rootPath path with
        | none => rw [hrel] at h; simp at h
        | some rel =>
          rw [hrel] at h
          exact Or.inr (Or.inr ⟨gi, rel, rfl, rfl, h⟩)
  · intro h
    unfold shouldSkip
    rcases h with h1 | h2 | ⟨gi, rel, hgi, hrel, hm⟩
    · rw [if_pos (by unfold SkipHidden; simp [h1])]
    · rw [if_pos (by unfold SkipHidden; simp [h2])]
    · by_cases hsk : SkipHidden path = true
      · rw [if_pos hsk]
      · rw [if_neg hsk, hgi, hrel]
        exact hm

/-- C6: a fatal traversal error (the root path cannot be stat'ed) is
surfaced to the caller with no partial results: nil paths and a false
truncation flag accompany the wrapped error. -/
theorem C6_fatal_traversal_error (sortSlice : Sorter) (compiledGitignore : Option GitIgnore)
    (pattern searchPath : String) (root : FSEntry) (limit : Int) (sched : List Nat)
    (hroot : root.accessErr = true) :
    GlobWithDoubleStar sortSlice compiledGitignore pattern searchPath root limit sched =
      { paths := [], truncated := false, err := some fastwalkRootErrMsg } := by
  unfold GlobWithDoubleStar
  simp [hroot]

theorem C6_witness :
    (FSEntry.dir "gone" true []).accessErr = true ∧
      GlobWithDoubleStar insertionSortSlice none "*.txt" "missing"
          (FSEntry.dir "gone" true []) 0 [] =
        { paths := [], truncated := false, err := some fastwalkRootErrMsg } :=
  ⟨rfl, C6_fatal_traversal_error insertionSortSlice none "*.txt" "missing"
    (FSEntry.dir "gone" true []) 0 [] rfl⟩

/-- C10 (amended): a per-file match error is treated as a non-match:
the file is skipped, the walk continues, and no error is surfaced (the
search returns a nil error whenever the root can be stat'ed); every
returned candidate actually matched the pattern. When no name matches
(in particular for malformed patterns whose every match attempt errors,
such as an unterminated character class), the search returns an empty
path sequence with a false truncation flag and no error. A
syntactically malformed pattern does not, however, guarantee an empty
result: brace alternation is matched lazily, so a pattern with a
malformed alternative can still match files. -/
theorem C10_match_error_skips (sortSlice : Sorter) (hs : SortSpec sortSlice)
    (compiledGitignore : Option GitIgnore) (pattern searchPath : String) (root : FSEntry)
    (limit : Int) (sched : List Nat) (hroot : root.accessErr = false) :
    (GlobWithDoubleStar sortSlice compiledGitignore pattern searchPath root limit
        sched).err = none ∧
    (∀ fi ∈ collectedMatches pattern searchPath compiledGitignore root limit sched,
      doublestarMatch pattern ((filepathRel searchPath fi.path).getD fi.path) =
        Except.ok true) ∧
    ((∀ name, doublestarMatch pattern name ≠ Except.ok true) →
      GlobWithDoubleStar sortSlice compiledGitignore pattern searchPath root limit sched =
        { paths := [], truncated := false, err := none }) := by
  refine ⟨?_, ?_, ?_⟩
  · unfold GlobWithDoubleStar
    simp [NewFastGlobWalker, hroot]
  · intro fi hfi
    unfold collectedMatches at hfi
    rcases walkLoop_mem_matched pattern searchPath compiledGitignore limit _ _ _ _ fi hfi
      with h | h
    · simp at h
    · exact h
  · intro hnone
    have hcol : collectedMatches pattern searchPath compiledGitignore root limit sched =
        [] := by
      unfold collectedMatches
      exact walkLoop_noMatch pattern searchPath compiledGitignore limit hnone _ _ _ _
    have hempty : sortSlice fileInfoAfter [] = [] := (hs []).1.eq_nil
    unfold GlobWithDoubleStar
    simp only [NewFastGlobWalker, hroot, Bool.false_eq_true, if_false]
    simp only [rankedMatches, resultTruncated]
    rw [hcol, hempty]
    simp only [List.length_nil, List.map_nil, GlobResult.mk.injEq, and_true]
    refine ⟨?_, ?_⟩
    · split
      case isTrue hcond => simp at hcond; omega
      case isFalse hcond => simp
    · simp only [decide_eq_false_iff_not, not_and]
      intro h0
      omega

/-- C10 counterexample: the pattern "\x7ba,[\x7d" (a brace group whose
second alternative has an unterminated character class) is rejected by
pattern validation, yet its first alternative matches the name "a"
before the malformed one is ever examined, so the search of a root
containing a file named a returns that file with no error - a
syntactically malformed pattern with a non-empty, error-free result. -/
theorem C10_counterexample :
    validatePattern "\x7ba,[\x7d" = false ∧
      doublestarMatch "\x7ba,[\x7d" "a" = Except.ok true ∧
      GlobWithDoubleStar insertionSortSlice none "\x7ba,[\x7d" "."
          (FSEntry.dir "r" false [FSEntry.file "a" 7 false false]) 0 [] =
        { paths := ["./a"], truncated := false, err := none } :=
  ⟨rfl, rfl, by decide⟩

theorem C10_witness :
    SortSpec insertionSortSlice ∧
      (FSEntry.dir "r" false [FSEntry.file "x" 3 false false]).accessErr = false ∧
      ((GlobWithDoubleStar insertionSortSlice none "[" "."
          (FSEntry.dir "r" false [FSEntry.file "x" 3 false false]) 5 []).err = none ∧
        (∀ fi ∈ collectedMatches "[" "." none
            (FSEntry.dir "r" false [FSEntry.file "x" 3 false false]) 5 [],
          doublestarMatch "[" ((filepathRel "." fi.path).getD fi.path) =
            Except.ok true) ∧
        ((∀ name, doublestarMatch "[" name ≠ Except.ok true) →
          GlobWithDoubleStar insertionSortSlice none "[" "."
              (FSEntry.dir "r" false [FSEntry.file "x" 3 false false]) 5 [] =
            { paths := [], truncated := false, err := none })) :=
  ⟨sortSpec_insertionSortSlice, rfl,
    C10_match_error_skips insertionSortSlice sortSpec_insertionSortSlice none "[" "."
      (FSEntry.dir "r" false [FSEntry.file "x" 3 false false]) 5 [] rfl⟩

/-- C1: with a positive limit, at most limit paths are returned and the
truncation flag is set exactly when the collected qualifying candidates
strictly exceed the limit; with a nonpositive limit, every collected
candidate is returned (as a permutation of the collected paths) and the
flag is false. -/
theorem C1_limit_semantics (sortSlice : Sorter) (hs : SortSpec sortSlice)
    (compiledGitignore : Option GitIgnore) (pattern searchPath : String) (root : FSEntry)
    (limit : Int) (sched : List Nat) (hroot : root.accessErr = false) :
    (0 < limit →
      (((GlobWithDoubleStar sortSlice compiledGitignore pattern searchPath root limit
            sched).paths.length : Int) ≤ limit ∧
        ((GlobWithDoubleStar sortSlice compiledGitignore pattern searchPath root limit
            sched).truncated = true ↔
          limit < ((collectedMatches pattern searchPath compiledGitignore root limit
            sched).length : Int)))) ∧
    (limit ≤ 0 →
      ((GlobWithDoubleStar sortSlice compiledGitignore pattern searchPath root limit
          sched).paths.Perm
        ((collectedMatches pattern searchPath compiledGitignore root limit
            sched).map FileInfo.path) ∧
        (GlobWithDoubleStar sortSlice compiledGitignore pattern searchPath root limit
          sched).truncated = false)) := by
  have hperm := (hs (collectedMatches pattern searchPath compiledGitignore root limit sched)).1
  have hlen := hperm.length_eq
  unfold GlobWithDoubleStar
  simp only [NewFastGlobWalker, hroot, Bool.false_eq_true, if_false]
  constructor
  · intro hpos
    constructor
    · simp only [rankedMatches]
      split
      case isTrue hc =>
        simp only [List.length_map, List.length_take]
        push_cast
        omega
      case isFalse hc =>
        simp only [not_and, not_lt] at hc
        have := hc hpos
        simp only [List.length_map]
        omega
    · unfold resultTruncated
      simp only [decide_eq_true_eq]
      constructor
      · rintro ⟨_, h⟩
        omega
      · intro h
        exact ⟨hpos, by omega⟩
  · intro hneg
    constructor
    · simp only [rankedMatches]
      rw [if_neg (by rintro ⟨h0, _⟩; omega)]
      exact hperm.map FileInfo.path
    · unfold resultTruncated
      simp only [decide_eq_false_iff_not, not_and]
      intro h0
      omega

theorem C1_witness :
    SortSpec insertionSortSlice ∧
      (FSEntry.dir "r" false [FSEntry.file "x" 3 false false,
        FSEntry.file "y" 7 false false]).accessErr = false ∧
      0 < (1 : Int) ∧
      (((GlobWithDoubleStar insertionSortSlice none "*" "."
          (FSEntry.dir "r" false [FSEntry.file "x" 3 false false,
            FSEntry.file "y" 7 false false]) 1 []).paths.length : Int) ≤ 1 ∧
        ((GlobWithDoubleStar insertionSortSlice none "*" "."
          (FSEntry.dir "r" false [FSEntry.file "x" 3 false false,
            FSEntry.file "y" 7 false false]) 1 []).truncated = true ↔
          1 < ((collectedMatches "*" "." none
            (FSEntry.dir "r" false [FSEntry.file "x" 3 false false,
              FSEntry.file "y" 7 false false]) 1 []).length : Int))) :=
  ⟨sortSpec_insertionSortSlice, rfl, by decide,
    (C1_limit_semantics insertionSortSlice sortSpec_insertionSortSlice none "*" "."
      (FSEntry.dir "r" false [FSEntry.file "x" 3 false false,
        FSEntry.file "y" 7 false false]) 1 [] rfl).1 (by decide)⟩

/-- C3 (amended): with a positive limit, the walk stops starting new
entry callbacks once the recorded candidates reach twice the limit and
abandons all pending traversal work; but because the mutex guards only
the append of a candidate and the threshold check (fileutil.go lines
163-169), file callbacks already past their match and metadata checks
still commit their candidate, so with at most W file callbacks
concurrently in flight the recorded and staged candidates together
never exceed limit*2 + W - 1 — they stay strictly below limit*2 only
while no callback has signalled termination, and can reach limit*2 + 1.
With a nonpositive limit no early termination occurs and a completed
walk (nothing pending, nothing staged) collects exactly the qualifying
candidates (a permutation). -/
theorem C3_early_termination_bound (compiledGitignore : Option GitIgnore)
    (pattern searchPath : String) (root : FSEntry) (limit : Int) (W : Nat)
    (choices : List FineChoice) :
    (0 < limit →
      (((fineRun pattern searchPath compiledGitignore limit W choices
            (fineInit searchPath root)).recorded.length : Int) +
          ((fineRun pattern searchPath compiledGitignore limit W choices
            (fineInit searchPath root)).staged.length : Int) ≤
        limit * 2 + (W : Int) - 1) ∧
      ((fineRun pattern searchPath compiledGitignore limit W choices
          (fineInit searchPath root)).stopped = false →
        (((fineRun pattern searchPath compiledGitignore limit W choices
            (fineInit searchPath root)).recorded.length : Int) < limit * 2))) ∧
    (limit ≤ 0 →
      (fineRun pattern searchPath compiledGitignore limit W choices
          (fineInit searchPath root)).stopped = false ∧
      ((fineRun pattern searchPath compiledGitignore limit W choices
          (fineInit searchPath root)).pending = [] →
        (fineRun pattern searchPath compiledGitignore limit W choices
          (fineInit searchPath root)).staged = [] →
        (fineRun pattern searchPath compiledGitignore limit W choices
            (fineInit searchPath root)).recorded.Perm
          (qualifyingList pattern searchPath compiledGitignore [(searchPath, root)]))) := by
  constructor
  · intro hpos
    obtain ⟨i1, i2, i3⟩ := fineRun_inv pattern searchPath compiledGitignore limit W choices
      (fineInit searchPath root) (fineInit_inv limit W searchPath root)
    constructor
    · cases hb : (fineRun pattern searchPath compiledGitignore limit W choices
        (fineInit searchPath root)).stopped with
      | true => exact i3 hb hpos
      | false =>
        have := i1 hb hpos
        omega
    · exact fun hb => i1 hb hpos
  · intro hneg
    constructor
    · exact fineRun_stopped_nonpos pattern searchPath compiledGitignore limit W hneg
        choices (fineInit searchPath root)
    · intro hpend hstage
      have hp := fineRun_perm pattern searchPath compiledGitignore limit W choices
        (fineInit searchPath root)
      rw [hpend, hstage] at hp
      simpa [fineInit, qualifyingList_nil] using hp

theorem C3_witness :
    0 < (1 : Int) ∧
      (((fineRun "*" "." none 1 1
            [FineChoice.start 0, FineChoice.start 0, FineChoice.commit 0,
             FineChoice.start 0, FineChoice.commit 0]
            (fineInit "." (FSEntry.dir "r" false
              [FSEntry.file "p" 1 false false, FSEntry.file "q" 2 false false,
               FSEntry.file "s" 3 false false]))).recorded.length : Int) +
          ((fineRun "*" "." none 1 1
            [FineChoice.start 0, FineChoice.start 0, FineChoice.commit 0,
             FineChoice.start 0, FineChoice.commit 0]
            (fineInit "." (FSEntry.dir "r" false
              [FSEntry.file "p" 1 false false, FSEntry.file "q" 2 false false,
               FSEntry.file "s" 3 false false]))).staged.length : Int) ≤
        1 * 2 + ((1 : Nat) : Int) - 1) ∧
      ((fineRun "*" "." none 1 1
          [FineChoice.start 0, FineChoice.start 0, FineChoice.commit 0,
           FineChoice.start 0, FineChoice.commit 0]
          (fineInit "." (FSEntry.dir "r" false
            [FSEntry.file "p" 1 false false, FSEntry.file "q" 2 false false,
             FSEntry.file "s" 3 false false]))).stopped = false →
        (((fineRun "*" "." none 1 1
            [FineChoice.start 0, FineChoice.start 0, FineChoice.commit 0,
             FineChoice.start 0, FineChoice.commit 0]
            (fineInit "." (FSEntry.dir "r" false
              [FSEntry.file "p" 1 false false, FSEntry.file "q" 2 false false,
               FSEntry.file "s" 3 false false]))).recorded.length : Int) < 1 * 2)) :=
  ⟨by decide,
    (C3_early_termination_bound none "*" "."
      (FSEntry.dir "r" false
        [FSEntry.file "p" 1 false false, FSEntry.file "q" 2 false false,
         FSEntry.file "s" 3 false false]) 1 1
      [FineChoice.start 0, FineChoice.start 0, FineChoice.commit 0,
       FineChoice.start 0, FineChoice.commit 0]).1 (by decide)⟩

theorem C3_counterexample :
    (fineRun "*" "." none 1 2
        [FineChoice.start 0, FineChoice.start 0, FineChoice.start 0, FineChoice.commit 0,
         FineChoice.start 0, FineChoice.commit 0, FineChoice.commit 0]
        (fineInit "." (FSEntry.dir "r" false
          [FSEntry.file "a" 1 false false, FSEntry.file "b" 2 false false,
           FSEntry.file "c" 3 false false]))).recorded.length = 3 ∧
      ¬ ((fineRun "*" "." none 1 2
          [FineChoice.start 0, FineChoice.start 0, FineChoice.start 0, FineChoice.commit 0,
           FineChoice.start 0, FineChoice.commit 0, FineChoice.commit 0]
          (fineInit "." (FSEntry.dir "r" false
            [FSEntry.file "a" 1 false false, FSEntry.file "b" 2 false false,
             FSEntry.file "c" 3 false false]))).recorded.length ≤ 2 * 1) := by
  decide

/-- C2 (amended): the returned paths are the projection of the ranked
matches, and the ranked matches are ordered by modification time
descending (adjacent entries never strictly increase); the relative
order of candidates with equal modification times is not specified,
because the sort.Slice contract does not promise stability. -/
theorem C2_descending_order (sortSlice : Sorter) (hs : SortSpec sortSlice)
    (compiledGitignore : Option GitIgnore) (pattern searchPath : String) (root : FSEntry)
    (limit : Int) (sched : List Nat) (hroot : root.accessErr = false) :
    (GlobWithDoubleStar sortSlice compiledGitignore pattern searchPath root limit
        sched).paths =
      (rankedMatches sortSlice limit (collectedMatches pattern searchPath compiledGitignore
        root limit sched)).map FileInfo.path ∧
    List.Chain' (fun a b => b.modTime ≤ a.modTime)
      (rankedMatches sortSlice limit (collectedMatches pattern searchPath compiledGitignore
        root limit sched)) := by
  constructor
  · unfold GlobWithDoubleStar
    simp [NewFastGlobWalker, hroot]
  · have hchain := (hs (collectedMatches pattern searchPath compiledGitignore root limit
      sched)).2
    have hchain2 : List.Chain' (fun a b : FileInfo => b.modTime ≤ a.modTime)
        (sortSlice fileInfoAfter (collectedMatches pattern searchPath compiledGitignore root
          limit sched)) := by
      refine List.Chain'.imp ?_ hchain
      intro a b hab
      simp only [fileInfoAfter, decide_eq_false_iff_not, not_lt] at hab
      exact hab
    simp only [rankedMatches]
    split
    · exact hchain2.take _
    · exact hchain2

theorem C2_witness :
    SortSpec insertionSortSlice ∧
      (FSEntry.dir "r" false [FSEntry.file "x" 3 false false,
        FSEntry.file "y" 7 false false]).accessErr = false ∧
      ((GlobWithDoubleStar insertionSortSlice none "*" "."
          (FSEntry.dir "r" false [FSEntry.file "x" 3 false false,
            FSEntry.file "y" 7 false false]) 0 []).paths =
        (rankedMatches insertionSortSlice 0 (collectedMatches "*" "." none
          (FSEntry.dir "r" false [FSEntry.file "x" 3 false false,
            FSEntry.file "y" 7 false false]) 0 [])).map FileInfo.path ∧
      List.Chain' (fun a b => b.modTime ≤ a.modTime)
        (rankedMatches insertionSortSlice 0 (collectedMatches "*" "." none
          (FSEntry.dir "r" false [FSEntry.file "x" 3 false false,
            FSEntry.file "y" 7 false false]) 0 []))) :=
  ⟨sortSpec_insertionSortSlice, rfl,
    C2_descending_order insertionSortSlice sortSpec_insertionSortSlice none "*" "."
      (FSEntry.dir "r" false [FSEntry.file "x" 3 false false,
        FSEntry.file "y" 7 false false]) 0 [] rfl⟩

/-- C2 counterexample: a sorter satisfying the documented sort.Slice
contract (permutation, descending order) under which two candidates
with equal modification times are returned in the reverse of their
discovery order. The walk discovers a.txt before b.txt (both with
modification time 5), yet the search returns b.txt before a.txt, so
discovery order of ties is not preserved by the program's contract
with its sorting collaborator. -/
theorem C2_counterexample :
    SortSpec revSortSlice ∧
      collectedMatches "*" "." none
        (FSEntry.dir "r" false [FSEntry.file "a.txt" 5 false false,
          FSEntry.file "b.txt" 5 false false]) 0 [] =
        [{ path := "./a.txt", modTime := 5 }, { path := "./b.txt", modTime := 5 }] ∧
      GlobWithDoubleStar revSortSlice none "*" "."
        (FSEntry.dir "r" false [FSEntry.file "a.txt" 5 false false,
          FSEntry.file "b.txt" 5 false false]) 0 [] =
        { paths := ["./b.txt", "./a.txt"], truncated := false, err := none } :=
  ⟨sortSpec_revSortSlice, by decide, by decide⟩

theorem pruneEntry_accessErr {e e2 : FSEntry} (h : pruneEntry e = some e2) :
    e2.accessErr = false := by
  cases e with
  | file n mt aerr ierr =>
    simp only [pruneEntry] at h
    split at h
    · cases h
    · cases h; rfl
  | dir n aerr cs =>
    simp only [pruneEntry] at h
    split at h
    · cases h
    · cases h; rfl

/-- C7: per-entry access errors never surface: whenever the root can be
stat'ed the search returns without error, and the deterministic
traversal over a tree equals the traversal over the same tree with
every error-carrying entry removed — an inaccessible entry is skipped
and the walk continues over the remaining entries. -/
theorem C7_per_entry_errors (sortSlice : Sorter) (compiledGitignore : Option GitIgnore)
    (pattern searchPath : String) (root : FSEntry) (limit : Int) (sched : List Nat)
    (hroot : root.accessErr = false) :
    (GlobWithDoubleStar sortSlice compiledGitignore pattern searchPath root limit
        sched).err = none ∧
    (∀ root2, pruneEntry root = some root2 →
      GlobWithDoubleStar sortSlice compiledGitignore pattern searchPath root limit [] =
        GlobWithDoubleStar sortSlice compiledGitignore pattern searchPath root2 limit []) := by
  constructor
  · unfold GlobWithDoubleStar
    simp [NewFastGlobWalker, hroot]
  · intro root2 hpr
    have hroot2 : root2.accessErr = false := pruneEntry_accessErr hpr
    have hpp : prunePending [(searchPath, root)] = [(searchPath, root2)] := by
      simp [prunePending, hpr]
    have hcol : collectedMatches pattern searchPath compiledGitignore root limit [] =
        collectedMatches pattern searchPath compiledGitignore root2 limit [] := by
      unfold collectedMatches
      have h := walkLoop_prune pattern searchPath compiledGitignore limit
        (FSEntry.size root) (FSEntry.size root2) [(searchPath, root)] []
        (by simp [pendingSize]) (by rw [hpp]; simp [pendingSize])
      rw [hpp] at h
      exact h
    unfold GlobWithDoubleStar
    simp only [NewFastGlobWalker, hroot, hroot2, Bool.false_eq_true, if_false]
    rw [hcol]

theorem C7_witness :
    (FSEntry.dir "r" false
        [FSEntry.file "good" 5 false false, FSEntry.file "bad" 9 true false,
         FSEntry.file "ugly" 7 false true,
         FSEntry.dir "sub" true [FSEntry.file "unreachable" 1 false false]]).accessErr =
      false ∧
    (GlobWithDoubleStar insertionSortSlice none "*" "."
        (FSEntry.dir "r" false
          [FSEntry.file "good" 5 false false, FSEntry.file "bad" 9 true false,
           FSEntry.file "ugly" 7 false true,
           FSEntry.dir "sub" true [FSEntry.file "unreachable" 1 false false]]) 0
        []).err = none ∧
    GlobWithDoubleStar insertionSortSlice none "*" "."
        (FSEntry.dir "r" false
          [FSEntry.file "good" 5 false false, FSEntry.file "bad" 9 true false,
           FSEntry.file "ugly" 7 false true,
           FSEntry.dir "sub" true [FSEntry.file "unreachable" 1 false false]]) 0 [] =
      GlobWithDoubleStar insertionSortSlice none "*" "."
        (FSEntry.dir "r" false [FSEntry.file "good" 5 false false]) 0 [] :=
  ⟨rfl,
    (C7_per_entry_errors insertionSortSlice none "*" "."
      (FSEntry.dir "r" false
        [FSEntry.file "good" 5 false false, FSEntry.file "bad" 9 true false,
         FSEntry.file "ugly" 7 false true,
         FSEntry.dir "sub" true [FSEntry.file "unreachable" 1 false false]]) 0 [] rfl).1,
    (C7_per_entry_errors insertionSortSlice none "*" "."
      (FSEntry.dir "r" false
        [FSEntry.file "good" 5 false false, FSEntry.file "bad" 9 true false,
         FSEntry.file "ugly" 7 false true,
         FSEntry.dir "sub" true [FSEntry.file "unreachable" 1 false false]]) 0 [] rfl).2
      (FSEntry.dir "r" false [FSEntry.file "good" 5 false false]) rfl⟩

/-- C9 (amended): across any two worker schedules, the same arguments
against an unchanged tree yield the same truncation flag and the same
error; the returned path set is also the same whenever limit is
nonpositive (with a positive limit and more than 2*limit qualifying
candidates, different schedules can collect different candidate
subsets, so the path sets may differ). -/
theorem C9_schedule_independence (sortSlice : Sorter) (hs : SortSpec sortSlice)
    (compiledGitignore : Option GitIgnore) (pattern searchPath : String) (root : FSEntry)
    (limit : Int) (sched1 sched2 : List Nat) :
    (GlobWithDoubleStar sortSlice compiledGitignore pattern searchPath root limit
        sched1).truncated =
      (GlobWithDoubleStar sortSlice compiledGitignore pattern searchPath root limit
        sched2).truncated ∧
    (GlobWithDoubleStar sortSlice compiledGitignore pattern searchPath root limit
        sched1).err =
      (GlobWithDoubleStar sortSlice compiledGitignore pattern searchPath root limit
        sched2).err ∧
    (limit ≤ 0 →
      (GlobWithDoubleStar sortSlice compiledGitignore pattern searchPath root limit
          sched1).paths.Perm
        (GlobWithDoubleStar sortSlice compiledGitignore pattern searchPath root limit
          sched2).paths) := by
  cases hroot : root.accessErr with
  | true =>
    unfold GlobWithDoubleStar
    simp [NewFastGlobWalker, hroot]
  | false =>
    unfold GlobWithDoubleStar
    simp only [NewFastGlobWalker, hroot, Bool.false_eq_true, if_false]
    by_cases hpos : 0 < limit
    · have h1 := walkLoop_length_min pattern searchPath compiledGitignore limit hpos
        (FSEntry.size root) sched1 [(searchPath, root)] []
        (by simp [pendingSize]) (by simp; omega)
      have h2 := walkLoop_length_min pattern searchPath compiledGitignore limit hpos
        (FSEntry.size root) sched2 [(searchPath, root)] []
        (by simp [pendingSize]) (by simp; omega)
      have hlen12 : ((collectedMatches pattern searchPath compiledGitignore root limit
          sched1).length : Int) =
          ((collectedMatches pattern searchPath compiledGitignore root limit
            sched2).length : Int) := by
        unfold collectedMatches
        rw [h1, h2]
      have e1 := ((hs (collectedMatches pattern searchPath compiledGitignore root limit
        sched1)).1).length_eq
      have e2 := ((hs (collectedMatches pattern searchPath compiledGitignore root limit
        sched2)).1).length_eq
      refine ⟨?_, trivial, ?_⟩
      · unfold resultTruncated
        refine decide_eq_decide.mpr ?_
        constructor
        · rintro ⟨h0, h⟩
          exact ⟨h0, by omega⟩
        · rintro ⟨h0, h⟩
          exact ⟨h0, by omega⟩
      · intro hneg
        exact absurd hpos (by omega)
    · push_neg at hpos
      have hp1 := walkLoop_perm_qualifying pattern searchPath compiledGitignore limit hpos
        (FSEntry.size root) sched1 [(searchPath, root)] [] (by simp [pendingSize])
      have hp2 := walkLoop_perm_qualifying pattern searchPath compiledGitignore limit hpos
        (FSEntry.size root) sched2 [(searchPath, root)] [] (by simp [pendingSize])
      have hc1 : (collectedMatches pattern searchPath compiledGitignore root limit
          sched1).Perm
          (qualifyingList pattern searchPath compiledGitignore [(searchPath, root)]) := by
        unfold collectedMatches
        simpa using hp1
      have hc2 : (collectedMatches pattern searchPath compiledGitignore root limit
          sched2).Perm
          (qualifyingList pattern searchPath compiledGitignore [(searchPath, root)]) := by
        unfold collectedMatches
        simpa using hp2
      have hq1 := (hs (collectedMatches pattern searchPath compiledGitignore root limit
        sched1)).1
      have hq2 := (hs (collectedMatches pattern searchPath compiledGitignore root limit
        sched2)).1
      refine ⟨?_, trivial, ?_⟩
      · unfold resultTruncated
        have hfalse : ∀ ms : List FileInfo,
            decide (0 < limit ∧
              (limit : Int) < ((sortSlice fileInfoAfter ms).length : Int)) = false := by
          intro ms
          simp only [decide_eq_false_iff_not, not_and]
          intro h0
          omega
        rw [hfalse, hfalse]
      · intro _
        simp only [rankedMatches]
        rw [if_neg (by rintro ⟨h0, _⟩; omega), if_neg (by rintro ⟨h0, _⟩; omega)]
        exact ((hq1.trans hc1).map FileInfo.path).trans
          (((hq2.trans hc2).map FileInfo.path).symm)

/-- C9 counterexample: with limit 1, more than 2*limit qualifying files
split across two subdirectories, two worker schedules (the default one
and the one visiting d2 first) return different path sets (./d1/x
versus ./d2/z) under the same arguments and an unchanged tree, so
idempotence of the path set fails for positive limits. -/
theorem C9_counterexample :
    GlobWithDoubleStar insertionSortSlice none "**" "."
        (FSEntry.dir "root" false
          [FSEntry.dir "d1" false
            [FSEntry.file "x" 10 false false, FSEntry.file "y" 1 false false],
           FSEntry.dir "d2" false
            [FSEntry.file "z" 20 false false, FSEntry.file "w" 1 false false]]) 1 [] =
      { paths := ["./d1/x"], truncated := true, err := none } ∧
    GlobWithDoubleStar insertionSortSlice none "**" "."
        (FSEntry.dir "root" false
          [FSEntry.dir "d1" false
            [FSEntry.file "x" 10 false false, FSEntry.file "y" 1 false false],
           FSEntry.dir "d2" false
            [FSEntry.file "z" 20 false false, FSEntry.file "w" 1 false false]]) 1
        [0, 1] =
      { paths := ["./d2/z"], truncated := true, err := none } :=
  ⟨by decide, by decide⟩

theorem C9_witness :
    SortSpec insertionSortSlice ∧
      ((GlobWithDoubleStar insertionSortSlice none "*" "."
          (FSEntry.dir "r" false [FSEntry.file "x" 3 false false,
            FSEntry.file "y" 7 false false]) 0 [1]).truncated =
        (GlobWithDoubleStar insertionSortSlice none "*" "."
          (FSEntry.dir "r" false [FSEntry.file "x" 3 false false,
            FSEntry.file "y" 7 false false]) 0 []).truncated ∧
      (GlobWithDoubleStar insertionSortSlice none "*" "."
          (FSEntry.dir "r" false [FSEntry.file "x" 3 false false,
            FSEntry.file "y" 7 false false]) 0 [1]).err =
        (GlobWithDoubleStar insertionSortSlice none "*" "."
          (FSEntry.dir "r" false [FSEntry.file "x" 3 false false,
            FSEntry.file "y" 7 false false]) 0 []).err ∧
      ((0 : Int) ≤ 0 →
        (GlobWithDoubleStar insertionSortSlice none "*" "."
            (FSEntry.dir "r" false [FSEntry.file "x" 3 false false,
              FSEntry.file "y" 7 false false]) 0 [1]).paths.Perm
          (GlobWithDoubleStar insertionSortSlice none "*" "."
            (FSEntry.dir "r" false [FSEntry.file "x" 3 false false,
              FSEntry.file "y" 7 false false]) 0 []).paths)) :=
  ⟨sortSpec_insertionSortSlice,
    C9_schedule_independence insertionSortSlice sortSpec_insertionSortSlice none "*" "."
      (FSEntry.dir "r" false [FSEntry.file "x" 3 false false,
        FSEntry.file "y" 7 false false]) 0 [1] []⟩


/-- Shift a matched file's modification time by a constant. -/
def shiftFileInfo (d : Int) (fi : FileInfo) : FileInfo :=
  { path := fi.path, modTime := fi.modTime + d }

mutual
/-- Shift every modification time in a tree by a constant (names, flags
and structure unchanged). -/
def FSEntry.shiftTime (d : Int) : FSEntry → FSEntry
  | .file n mt a i => .file n (mt + d) a i
  | .dir n a cs => .dir n a (FSEntry.shiftTimeList d cs)
/-- FSEntry.shiftTime mapped over a list of entries. -/
def FSEntry.shiftTimeList (d : Int) : List FSEntry → List FSEntry
  | [] => []
  | c :: cs => FSEntry.shiftTime d c :: FSEntry.shiftTimeList d cs
end

/-- Shift every modification time in a work list by a constant. -/
def shiftItems (d : Int) (items : List WorkItem) : List WorkItem :=
  items.map (fun it => (it.1, FSEntry.shiftTime d it.2))

theorem shiftTime_isFile (d : Int) (e : FSEntry) :
    (FSEntry.shiftTime d e).isFile = e.isFile := by
  cases e <;> rfl

theorem shiftTime_name (d : Int) (e : FSEntry) :
    (FSEntry.shiftTime d e).name = e.name := by
  cases e <;> rfl

theorem shiftTimeList_filter (d : Int) (q : FSEntry → Bool)
    (hq : ∀ e, q (FSEntry.shiftTime d e) = q e) (cs : List FSEntry) :
    FSEntry.shiftTimeList d (cs.filter q) = (FSEntry.shiftTimeList d cs).filter q := by
  induction cs with
  | nil => rfl
  | cons c cs ih =>
    cases hf : q c
    · rw [List.filter_cons_of_neg (by simp [hf])]
      rw [show FSEntry.shiftTimeList d (c :: cs) =
        FSEntry.shiftTime d c :: FSEntry.shiftTimeList d cs from rfl]
      rw [List.filter_cons_of_neg (by simp [hq c, hf])]
      exact ih
    · rw [List.filter_cons_of_pos (by simp [hf])]
      rw [show FSEntry.shiftTimeList d (c :: cs) =
        FSEntry.shiftTime d c :: FSEntry.shiftTimeList d cs from rfl,
        show FSEntry.shiftTimeList d (c :: cs.filter q) =
          FSEntry.shiftTime d c :: FSEntry.shiftTimeList d (cs.filter q) from rfl]
      rw [List.filter_cons_of_pos (by simp [hq c, hf]), ih]

theorem shiftTimeList_append (d : Int) (a b : List FSEntry) :
    FSEntry.shiftTimeList d (a ++ b) =
      FSEntry.shiftTimeList d a ++ FSEntry.shiftTimeList d b := by
  induction a with
  | nil => rfl
  | cons c cs ih =>
    simp only [List.cons_append, FSEntry.shiftTimeList]
    exact congrArg _ ih

theorem sortFilesFirst_shiftTimeList (d : Int) (cs : List FSEntry) :
    sortFilesFirst (FSEntry.shiftTimeList d cs) =
      FSEntry.shiftTimeList d (sortFilesFirst cs) := by
  unfold sortFilesFirst
  rw [shiftTimeList_append, shiftTimeList_filter d FSEntry.isFile (shiftTime_isFile d),
    shiftTimeList_filter d (fun e => !e.isFile) (fun e => by simp [shiftTime_isFile])]

theorem shiftTimeList_map_children (d : Int) (path : String) (cs : List FSEntry) :
    (FSEntry.shiftTimeList d cs).map (fun c => (joinPath path c.name, c)) =
      shiftItems d (cs.map (fun c => (joinPath path c.name, c))) := by
  induction cs with
  | nil => rfl
  | cons c cs ih =>
    simp only [FSEntry.shiftTimeList, List.map_cons, shiftItems, ih, shiftTime_name]

theorem processItem_shiftTime (pattern searchPath : String) (gi : Option GitIgnore)
    (limit d : Int) (ms : List FileInfo) (path : String) (e : FSEntry) :
    processItem pattern searchPath gi limit (ms.map (shiftFileInfo d)) path
        (FSEntry.shiftTime d e) =
      ((processItem pattern searchPath gi limit ms path e).1.map (shiftFileInfo d),
       shiftItems d (processItem pattern searchPath gi limit ms path e).2.1,
       (processItem pattern searchPath gi limit ms path e).2.2) := by
  cases e with
  | file n mt aerr ierr =>
    simp only [processItem, FSEntry.shiftTime]
    split
    · simp [shiftItems]
    split
    · simp [shiftItems]
    split
    · simp [shiftItems]
    · simp [shiftItems]
    · split
      · simp [shiftItems]
      · simp only [shiftItems, List.map_nil]
        rw [show (ms.map (shiftFileInfo d) ++
            [({ path := path, modTime := mt + d } : FileInfo)]) =
          (ms ++ [({ path := path, modTime := mt } : FileInfo)]).map (shiftFileInfo d) by
            simp [shiftFileInfo]]
        simp [List.length_map]
  | dir n aerr cs =>
    simp only [processItem, FSEntry.shiftTime]
    split
    · simp [shiftItems]
    split
    · simp [shiftItems]
    · simp only [sortFilesFirst_shiftTimeList, shiftTimeList_map_children, shiftItems,
        List.map_nil]

theorem shiftItems_getD (d : Int) (l : List WorkItem) (d0 : WorkItem) :
    ∀ i, (shiftItems d l).getD i (d0.1, FSEntry.shiftTime d d0.2) =
      ((l.getD i d0).1, FSEntry.shiftTime d (l.getD i d0).2) := by
  induction l with
  | nil => intro i; cases i <;> rfl
  | cons it rest ih =>
    intro i
    cases i with
    | zero => rfl
    | succ j => simpa [shiftItems] using ih j

theorem shiftItems_eraseIdx (d : Int) (l : List WorkItem) :
    ∀ i, shiftItems d (l.eraseIdx i) = (shiftItems d l).eraseIdx i := by
  induction l with
  | nil => intro i; rfl
  | cons it rest ih =>
    intro i
    cases i with
    | zero => rfl
    | succ j =>
      simp only [List.eraseIdx_cons_succ, shiftItems, List.map_cons]
      exact congrArg _ (ih j)

theorem walkLoop_shiftTime (pattern searchPath : String) (gi : Option GitIgnore)
    (limit d : Int) :
    ∀ fuel sched pending ms,
      walkLoop pattern searchPath gi limit fuel sched (shiftItems d pending)
          (ms.map (shiftFileInfo d)) =
        (walkLoop pattern searchPath gi limit fuel sched pending ms).map
          (shiftFileInfo d) := by
  intro fuel
  induction fuel with
  | zero => intro sched pending ms; rfl
  | succ f ih =>
    intro sched pending ms
    cases pending with
    | nil => rfl
    | cons it0 restItems =>
      simp only [walkLoop, shiftItems, List.map_cons, List.length_cons, List.length_map]
      rw [← shiftItems]
      rw [show ((it0.1, FSEntry.shiftTime d it0.2) ::
          shiftItems d restItems) = shiftItems d (it0 :: restItems) by simp [shiftItems]]
      generalize hI : sched.headD 0 % (restItems.length + 1) = i
      have hgd := shiftItems_getD d (it0 :: restItems) it0 i
      rw [hgd]
      rw [processItem_shiftTime]
      split
      · rfl
      · rw [← shiftItems_eraseIdx]
        rw [show shiftItems d (processItem pattern searchPath gi limit ms
            (((it0 :: restItems).getD i it0).1) (((it0 :: restItems).getD i it0).2)).2.1 ++
            shiftItems d ((it0 :: restItems).eraseIdx i) =
          shiftItems d ((processItem pattern searchPath gi limit ms
            (((it0 :: restItems).getD i it0).1) (((it0 :: restItems).getD i it0).2)).2.1 ++
            (it0 :: restItems).eraseIdx i) by simp [shiftItems]]
        exact ih _ _ _

/-- C8 (amended): the scenario of a root containing a.txt (modification
time T), b.txt (modification time T + 10) and .git/c.txt, searched with
pattern "*.txt" and limit 1, returns exactly the path sequence
containing the visited path of b.txt — the search path "." joined with
the name by the traversal's raw concatenation, i.e. "./b.txt" — with
the truncation flag set. The .git subtree is pruned, both remaining
files are collected (the early-termination threshold is 2*limit = 2),
and the newer b.txt wins the single result slot. -/
theorem C8_scenario (tval : Int) :
    GlobWithDoubleStar insertionSortSlice none "*.txt" "."
        (FSEntry.dir "root" false
          [FSEntry.file "a.txt" tval false false,
           FSEntry.file "b.txt" (tval + 10) false false,
           FSEntry.dir ".git" false [FSEntry.file "c.txt" (tval + 20) false false]]) 1 [] =
      { paths := ["./b.txt"], truncated := true, err := none } := by
  have htree : FSEntry.shiftTime tval
      (FSEntry.dir "root" false
        [FSEntry.file "a.txt" 0 false false,
         FSEntry.file "b.txt" 10 false false,
         FSEntry.dir ".git" false [FSEntry.file "c.txt" 20 false false]]) =
      FSEntry.dir "root" false
        [FSEntry.file "a.txt" tval false false,
         FSEntry.file "b.txt" (tval + 10) false false,
         FSEntry.dir ".git" false [FSEntry.file "c.txt" (tval + 20) false false]] := by
    simp only [FSEntry.shiftTime, FSEntry.shiftTimeList]
    simp only [FSEntry.dir.injEq, FSEntry.file.injEq, List.cons.injEq, and_true, true_and]
    omega
  have h7 : collectedMatches "*.txt" "." none
      (FSEntry.dir "root" false
        [FSEntry.file "a.txt" tval false false,
         FSEntry.file "b.txt" (tval + 10) false false,
         FSEntry.dir ".git" false [FSEntry.file "c.txt" (tval + 20) false false]]) 1 [] =
      walkLoop "*.txt" "." none 1 7 []
        [(".", FSEntry.dir "root" false
          [FSEntry.file "a.txt" tval false false,
           FSEntry.file "b.txt" (tval + 10) false false,
           FSEntry.dir ".git" false [FSEntry.file "c.txt" (tval + 20) false false]])] [] := by
    unfold collectedMatches
    refine walkLoop_fuel "*.txt" "." none 1 _ _ _ _ _ ?_ ?_ <;>
      simp [pendingSize, FSEntry.size, FSEntry.sizeList]
  have hshift : walkLoop "*.txt" "." none 1 7 []
      [(".", FSEntry.dir "root" false
        [FSEntry.file "a.txt" tval false false,
         FSEntry.file "b.txt" (tval + 10) false false,
         FSEntry.dir ".git" false [FSEntry.file "c.txt" (tval + 20) false false]])] [] =
      (walkLoop "*.txt" "." none 1 7 []
        [(".", FSEntry.dir "root" false
          [FSEntry.file "a.txt" 0 false false,
           FSEntry.file "b.txt" 10 false false,
           FSEntry.dir ".git" false [FSEntry.file "c.txt" 20 false false]])] []).map
        (shiftFileInfo tval) := by
    rw [← htree]
    exact walkLoop_shiftTime "*.txt" "." none 1 tval 7 []
      [(".", FSEntry.dir "root" false
        [FSEntry.file "a.txt" 0 false false,
         FSEntry.file "b.txt" 10 false false,
         FSEntry.dir ".git" false [FSEntry.file "c.txt" 20 false false]])] []
  have h0 : walkLoop "*.txt" "." none 1 7 []
      [(".", FSEntry.dir "root" false
        [FSEntry.file "a.txt" 0 false false,
         FSEntry.file "b.txt" 10 false false,
         FSEntry.dir ".git" false [FSEntry.file "c.txt" 20 false false]])] [] =
      [{ path := "./a.txt", modTime := 0 }, { path := "./b.txt", modTime := 10 }] := by
    decide
  have hcol : collectedMatches "*.txt" "." none
      (FSEntry.dir "root" false
        [FSEntry.file "a.txt" tval false false,
         FSEntry.file "b.txt" (tval + 10) false false,
         FSEntry.dir ".git" false [FSEntry.file "c.txt" (tval + 20) false false]]) 1 [] =
      [{ path := "./a.txt", modTime := tval },
       { path := "./b.txt", modTime := tval + 10 }] := by
    rw [h7, hshift, h0]
    simp only [List.map_cons, List.map_nil, shiftFileInfo, List.cons.injEq,
      FileInfo.mk.injEq, and_true, true_and]
    omega
  have hcmp : fileInfoAfter { path := "./b.txt", modTime := tval + 10 }
      { path := "./a.txt", modTime := tval } = true := by
    simp only [fileInfoAfter, decide_eq_true_eq]
    omega
  have hsort : insertionSortSlice fileInfoAfter
      [{ path := "./a.txt", modTime := tval },
       { path := "./b.txt", modTime := tval + 10 }] =
      [{ path := "./b.txt", modTime := tval + 10 },
       { path := "./a.txt", modTime := tval }] := by
    simp [insertionSortSlice, insertByAfter, hcmp]
  unfold GlobWithDoubleStar
  simp only [NewFastGlobWalker, FSEntry.accessErr, Bool.false_eq_true, if_false]
  rw [hcol]
  unfold rankedMatches resultTruncated
  rw [hsort]
  norm_num

/-- C8 counterexample: at the concrete base time 0, the search of the
scenario returns the visited path "./b.txt" (the traversal concatenates
the search path "." and the entry name without cleaning), not the bare
name "b.txt" the claim states, so the claimed exact output is false of
the code. -/
theorem C8_counterexample :
    GlobWithDoubleStar insertionSortSlice none "*.txt" "."
        (FSEntry.dir "root" false
          [FSEntry.file "a.txt" 0 false false,
           FSEntry.file "b.txt" 10 false false,
           FSEntry.dir ".git" false [FSEntry.file "c.txt" 20 false false]]) 1 [] =
      { paths := ["./b.txt"], truncated := true, err := none } ∧
    GlobWithDoubleStar insertionSortSlice none "*.txt" "."
        (FSEntry.dir "root" false
          [FSEntry.file "a.txt" 0 false false,
           FSEntry.file "b.txt" 10 false false,
           FSEntry.dir ".git" false [FSEntry.file "c.txt" 20 false false]]) 1 [] ≠
      { paths := ["b.txt"], truncated := true, err := none } :=
  ⟨by decide, by decide⟩
